import Mathlib

/-!
# Verification of the smas dense-matrix text codec and comparison helpers

This file shallowly embeds the text codec and comparison helpers of the
`smas` repository (`src/io.rs` and `src/util.rs`) in Lean 4 and proves the
specification claims about them.  (`src/solve.rs` is a single call into the
external `nalgebra` library's floating-point SVD pseudo-inverse and is not
embedded.)

Modelling conventions:
* `f64` values are modelled as exact rationals (`ℚ`); Rust float formatting
  with a precision rounds the exact value half-to-even, which is what the
  `rnd` function below does on `ℚ`.
* Rust strings are modelled as `List Char`; a file is a list of lines
  (`BufRead::lines` yields the lines without their terminators).
* A Rust `panic!`/`expect` failure and an early `None`/`Option` return are
  both modelled as values of an error type (`Except`/`Option`), with the
  error constructor recording which failure occurred.
* `f64::from_str` is modelled for the numeric literal forms
  (sign, integer/fraction digits, optional exponent); the special forms
  `inf`/`NaN` have no rational counterpart and are rejected by the model.
-/

deriving instance DecidableEq for Except

namespace Smas

/-- Whitespace test used by `split_whitespace` (`char::is_whitespace`,
restricted to the ASCII whitespace characters that can occur in the
interchange documents). -/
def isWsC (c : Char) : Bool := c == ' ' || c == '\t' || c == '\n' || c == '\r'

/-- Decimal digit test (`'0' ≤ c && c ≤ '9'`), as used when scanning
numeric literals. -/
def isDigitC (c : Char) : Bool := 48 ≤ c.toNat && c.toNat ≤ 57

/-- Numeric value of a decimal digit character. -/
def digitVal (c : Char) : ℕ := c.toNat - 48

/-- The number denoted by a big-endian string of decimal digits. -/
def digitsToNat (cs : List Char) : ℕ := cs.foldl (fun a c => 10 * a + digitVal c) 0

/-- The character of a decimal digit. -/
def digitChar (d : ℕ) : Char := Char.ofNat (48 + d)

/-- Big-endian decimal digits of `n`, with explicit fuel so that the kernel
can evaluate it.  `natDigitsAux fuel n` is the digit string of `n` provided
`n ≤ fuel` (and `[]` for `n = 0`). -/
def natDigitsAux : ℕ → ℕ → List Char
  | 0, _ => []
  | fuel + 1, n => if n = 0 then [] else natDigitsAux fuel (n / 10) ++ [digitChar (n % 10)]

/-- Decimal rendering of a natural number (Rust `{}` on `usize`). -/
def natToChars (n : ℕ) : List Char := if n = 0 then ['0'] else natDigitsAux n n

/-- Decimal rendering of an integer (Rust `{}` on the exponent of `{:e}`):
a leading `-` for negatives, no `+` for non-negatives. -/
def intToChars (e : ℤ) : List Char :=
  if e < 0 then '-' :: natToChars e.natAbs else natToChars e.toNat

/-- `str::split_whitespace`: maximal runs of non-whitespace characters, in
order.  Fuel-indexed so the kernel can evaluate it; `fuel = l.length`
always suffices. -/
def splitWsF : ℕ → List Char → List (List Char)
  | 0, _ => []
  | _ + 1, [] => []
  | fuel + 1, c :: rest =>
    if isWsC c then splitWsF fuel rest
    else (c :: rest.takeWhile (fun x => !isWsC x)) ::
      splitWsF fuel (rest.dropWhile (fun x => !isWsC x))

/-- `str::split_whitespace` on a line. -/
def splitWs (l : List Char) : List (List Char) := splitWsF l.length l

/-- Strip one leading sign character: returns (was it `-`?, the rest).
A leading `+` is consumed, anything else is left in place. -/
def stripSign (cs : List Char) : Bool × List Char :=
  match cs with
  | [] => (false, [])
  | c :: t => if c = '-' then (true, t) else if c = '+' then (false, t) else (false, cs)

/-- `usize::from_str`: an optional `+`, then at least one digit. -/
def parseNat? (cs : List Char) : Option ℕ :=
  let t := match cs with | '+' :: t => t | _ => cs
  if t ≠ [] ∧ t.all isDigitC then some (digitsToNat t) else none

/-- The exponent part of a float literal: optional sign, then digits. -/
def parseExp? (cs : List Char) : Option ℤ :=
  let sg := stripSign cs
  if sg.2 ≠ [] ∧ sg.2.all isDigitC then
    some ((if sg.1 then -1 else 1) * digitsToNat sg.2)
  else none

/-- `f64::from_str` on the numeric literal forms, with the value read
exactly into `ℚ`: optional sign, integer digits, optional `.` and fraction
digits (at least one digit overall), optional `e`/`E` exponent. -/
def parseFloat? (cs : List Char) : Option ℚ :=
  let sg := stripSign cs
  let sgn : ℚ := if sg.1 then -1 else 1
  let ip := sg.2.takeWhile isDigitC
  let rest1 := sg.2.dropWhile isDigitC
  let hasDot : Bool := rest1.head? = some '.'
  let fp := if hasDot then rest1.tail.takeWhile isDigitC else []
  let rest2 := if hasDot then rest1.tail.dropWhile isDigitC else rest1
  if ip = [] ∧ fp = [] then none
  else
    let mant : ℚ := sgn * ((digitsToNat ip : ℚ) + (digitsToNat fp : ℚ) / 10 ^ fp.length)
    match rest2 with
    | [] => some mant
    | c :: t =>
      if c = 'e' ∨ c = 'E' then (parseExp? t).map (fun ex => mant * (10 : ℚ) ^ ex)
      else none

/-! ## Rounding and float formatting

Rust's float formatting with a precision (`{:.p$}` / `{:.p$e}`) produces the
correctly rounded decimal string of the (exactly represented) value, with
ties broken to even. -/

/-- Round a rational to the nearest integer, ties to even. -/
def rnd (q : ℚ) : ℤ :=
  let f := ⌊q⌋
  if q - f < 1 / 2 then f
  else if 1 / 2 < q - f then f + 1
  else if f % 2 = 0 then f else f + 1

/-- Left-pad a digit string with zeros to width `p`. -/
def padZeros (p : ℕ) (cs : List Char) : List Char :=
  List.replicate (p - cs.length) '0' ++ cs

/-- The digit string of `m` with a decimal point placed `p` digits from the
right (no point at all when `p = 0`), e.g. `fixedChars 1250 2 = "12.50"`. -/
def fixedChars (m : ℕ) (p : ℕ) : List Char :=
  if p = 0 then natToChars m
  else natToChars (m / 10 ^ p) ++ '.' :: padZeros p (natToChars (m % 10 ^ p))

/-- Number of digits of `m` minus one: the exponent `e` with
`10^e ≤ m < 10^(e+1)` (for `m ≥ 1`).  Fuel-indexed; `fuel = m` suffices. -/
def countDigits : ℕ → ℕ → ℕ
  | 0, _ => 0
  | fuel + 1, m => if m < 10 then 0 else countDigits fuel (m / 10) + 1

/-- Least `k` with `d ≤ n * 10^k`.  Fuel-indexed; any `fuel` with
`d ≤ n * 10^fuel` suffices (`fuel = d` works for `n ≥ 1`). -/
def findScale (d n : ℕ) : ℕ → ℕ
  | 0 => 0
  | fuel + 1 => if d ≤ n then 0 else findScale d (n * 10) fuel + 1

/-- `⌊log₁₀ x⌋` for a positive rational, computed from the numerator and
denominator. -/
def qexp (x : ℚ) : ℤ :=
  let n := x.num.toNat
  let d := x.den
  if d ≤ n then (countDigits (n / d) (n / d) : ℤ)
  else -(findScale d n d : ℤ)

/-- This is an enum used to parametrize the float format in
formatting/output functions (`io::FloatFormat`). -/
inductive FloatFormat where
  /-- Format floats in scientific notation, e.g. 1.0e-3 -/
  | Scientific
  /-- Format floats in decimal notation, e.g. 0.001 -/
  | Decimal
deriving DecidableEq

/-- Rust `format!("{x:.p$}")`: fixed-point rendering with `p` digits after
the decimal point, correctly rounded, `-` sign for negative values. -/
def fmtDecimal (x : ℚ) (p : ℕ) : List Char :=
  (if x < 0 then ['-'] else []) ++ fixedChars (rnd (|x| * 10 ^ p)).toNat p

/-- Rust `format!("{x:.p$e}")`: scientific rendering with `p` mantissa
digits after the decimal point and a signed exponent with no `+`. -/
def fmtScientific (x : ℚ) (p : ℕ) : List Char :=
  if x = 0 then fixedChars 0 p ++ ['e', '0']
  else
    let e0 : ℤ := qexp |x|
    let m0 : ℕ := (rnd (|x| * (10 : ℚ) ^ ((p : ℤ) - e0))).toNat
    let me : ℕ × ℤ := if m0 = 10 ^ (p + 1) then (10 ^ p, e0 + 1) else (m0, e0)
    (if x < 0 then ['-'] else []) ++ fixedChars me.1 p ++ 'e' :: intToChars me.2

/-- One float in the chosen format (the shared `match float_format` arm of
the formatting functions in `io.rs`). -/
def fmtFloat (ff : FloatFormat) (p : ℕ) (x : ℚ) : List Char :=
  match ff with
  | .Decimal => fmtDecimal x p
  | .Scientific => fmtScientific x p

/-- The exact value denoted by `fmtFloat ff p x` (established by
`parseFloat_fmtFloat`). -/
def fmtVal (ff : FloatFormat) (p : ℕ) (x : ℚ) : ℚ :=
  match ff with
  | .Decimal => (if x < 0 then -1 else 1) * ((rnd (|x| * 10 ^ p)).toNat : ℚ) / 10 ^ p
  | .Scientific =>
    if x = 0 then 0
    else
      let e0 : ℤ := qexp |x|
      let m0 : ℕ := (rnd (|x| * (10 : ℚ) ^ ((p : ℤ) - e0))).toNat
      let me : ℕ × ℤ := if m0 = 10 ^ (p + 1) then (10 ^ p, e0 + 1) else (m0, e0)
      (if x < 0 then -1 else 1) * (me.1 : ℚ) * (10 : ℚ) ^ (me.2 - (p : ℤ))

/-! ## `io.rs`: parsing -/

/-- Run `parseFloat?` over a token list, failing on the first bad token
(the `.map(|s| f64::from_str(s).expect(..))` iterator). -/
def parseFloats : List (List Char) → Option (List ℚ)
  | [] => some []
  | t :: ts =>
    match parseFloat? t, parseFloats ts with
    | some x, some xs => some (x :: xs)
    | _, _ => none

/-- `io::parse_vector`: split the string on whitespace and parse every token
as a float; a bad token is a panic (`none`). -/
def parse_vector (s : List Char) : Option (List ℚ) :=
  parseFloats (splitWs s)

/-- The model of `nalgebra::DMatrix<f64>`: dimensions plus the
column-major element buffer, exactly as `nalgebra` stores it. -/
structure DMatrix where
  nrows : ℕ
  ncols : ℕ
  /-- column-major data: element `(i, j)` lives at index `j * nrows + i` -/
  data : List ℚ
deriving DecidableEq

namespace DMatrix

/-- `DMatrix::from_vec(nrows, ncols, v)`: asserts (panics, `none`) unless
`v` has exactly `nrows * ncols` entries, read in column-major order. -/
def from_vec (nr nc : ℕ) (v : List ℚ) : Option DMatrix :=
  if v.length = nr * nc then some ⟨nr, nc, v⟩ else none

/-- Element access (in-bounds reads of the column-major buffer). -/
def get (m : DMatrix) (i j : ℕ) : ℚ := m.data.getD (j * m.nrows + i) 0

/-- `Matrix::transpose`. -/
def transpose (m : DMatrix) : DMatrix :=
  ⟨m.ncols, m.nrows,
    (List.range (m.nrows * m.ncols)).map (fun k => m.get (k / m.ncols) (k % m.ncols))⟩

end DMatrix

/-- `io::parse_matrix`: parse the flat token stream, then build the matrix
with the row/column arguments swapped and transpose (because
`from_vec` expects column-major data). -/
def parse_matrix (s : List Char) (nrows ncols : ℕ) : Option DMatrix :=
  match parse_vector s with
  | none => none
  | some v => (DMatrix.from_vec ncols nrows v).map DMatrix.transpose

/-- `line.starts_with('%')`: the literal first character, not the first
non-whitespace character. -/
def startsPercent (l : List Char) : Bool :=
  match l with
  | '%' :: _ => true
  | _ => false

/-- The failure modes of `read_matrix_file`: a panic while parsing the
dimension line (`split[0]`/`split[1]` indexing or `usize::from_str`), a
panic parsing a data token (`f64::from_str(entry).unwrap()`), or the
explicit `None` return on a token-count mismatch (the `FormatError`
of the spec). -/
inductive ReadError where
  | dimPanic
  | tokenPanic
  | countMismatch
deriving DecidableEq

/-- `struct MatrixData` from `io.rs`: shape plus row-major values. -/
structure MatrixData where
  nrows : ℕ
  ncols : ℕ
  values : List ℚ
deriving DecidableEq

/-- The first loop of `read_matrix_file`: skip lines starting with `'%'`;
the first other line is split on whitespace and its first two tokens are
parsed as `rows` and `cols`.  If the file ends first, the initial
`rows = cols = 0` survive. -/
def readDims : List (List Char) → Except ReadError (ℕ × ℕ × List (List Char))
  | [] => .ok (0, 0, [])
  | l :: rest =>
    if startsPercent l then readDims rest
    else
      match splitWs l with
      | t0 :: t1 :: _ =>
        match parseNat? t0, parseNat? t1 with
        | some r, some c => .ok (r, c, rest)
        | _, _ => .error .dimPanic
      | _ => .error .dimPanic

/-- The second loop of `read_matrix_file`: tokenize every remaining line
and parse every token as a float, in order of appearance. -/
def readData : List (List Char) → Except ReadError (List ℚ)
  | [] => .ok []
  | l :: rest =>
    match parseFloats (splitWs l) with
    | none => .error .tokenPanic
    | some xs => (readData rest).map (fun ys => xs ++ ys)

/-- `io::read_matrix_file`, over the list of lines of the file: read the
dimension line, read all data tokens, and reject the document unless the
token count is exactly `rows * cols`. -/
def read_matrix_file (lines : List (List Char)) : Except ReadError MatrixData :=
  match readDims lines with
  | .error e => .error e
  | .ok (rows, cols, rest) =>
    match readData rest with
    | .error e => .error e
    | .ok data =>
      if data.length = rows * cols then .ok ⟨rows, cols, data⟩
      else .error .countMismatch

/-- `io::load_vector`: read the file and keep the flat value buffer. -/
def load_vector (lines : List (List Char)) : Except ReadError (List ℚ) :=
  (read_matrix_file lines).map MatrixData.values

/-! ## `io.rs`: formatting -/

/-- The `for (i, row)` loops of the formatting functions: render each
element and append the separator after every element but the last
(`if i < vector.nrows() - 1`). -/
def sepUnlessLast {α : Type} (sep : List Char) (f : α → List Char) : List α → List Char
  | [] => []
  | [x] => f x
  | x :: y :: rest => f x ++ sep ++ sepUnlessLast sep f (y :: rest)

/-- `io::format_vector_flat`: elements in row order, space separated, no
trailing newline. -/
def format_vector_flat (v : List ℚ) (ff : FloatFormat) (p : ℕ) : List Char :=
  sepUnlessLast [' '] (fmtFloat ff p) v

/-- `io::format_vector_mm_array`: a `% header` comment line, the dimension
line `n 1 n`, then one value per line prefixed with two spaces; no
trailing newline. -/
def format_vector_mm_array (v : List ℚ) (ff : FloatFormat) (p : ℕ) (header : List Char) :
    List Char :=
  '%' :: ' ' :: header ++ '\n' ::
    (natToChars v.length ++ ' ' :: '1' :: ' ' :: natToChars v.length) ++ '\n' ::
    sepUnlessLast ['\n'] (fun x => ' ' :: ' ' :: fmtFloat ff p x) v

/-! ## `util.rs` and comparison formatting -/

/-- `util::epsilon_eq`: `(a - b).abs() < epsilon`. -/
def epsilon_eq (a b eps : ℚ) : Bool := |a - b| < eps

/-- The one failure mode of `format_comparison_results`: the
`reactions_true.get(i).expect(..)` panic when `truth` is too short
(the spec's `IndexError`). -/
inductive CmpError where
  | indexPanic
deriving DecidableEq

/-- One output row of `format_comparison_results`: computed value, true
value, absolute difference, and the within-epsilon flag. -/
structure CmpRow where
  computed : ℚ
  truth : ℚ
  delta : ℚ
  withinEps : Bool
deriving DecidableEq

/-- The `for i in 0..n_rows` loop of `format_comparison_results`, carried
out over the list of indices: row `i` reads `computed[i]` (always present,
since `n_rows = computed.len()`) and `truth[i]` (a panic when absent). -/
def cmpLoop (computed truth : List ℚ) (eps : ℚ) :
    List ℕ → Except CmpError (List CmpRow)
  | [] => .ok []
  | i :: is =>
    match computed.get? i, truth.get? i with
    | some c, some t =>
      (cmpLoop computed truth eps is).map
        (fun rows => ⟨c, t, |c - t|, epsilon_eq t c eps⟩ :: rows)
    | _, _ => .error .indexPanic

/-- The rows of data emitted by `format_comparison_results`. -/
def format_comparison_rows (computed truth : List ℚ) (eps : ℚ) :
    Except CmpError (List CmpRow) :=
  cmpLoop computed truth eps (List.range computed.length)

/-- Render one comparison row: two leading spaces, then the three numbers
and the flag, tab separated. -/
def renderCmpRow (ff : FloatFormat) (p : ℕ) (r : CmpRow) : List Char :=
  ' ' :: ' ' :: fmtFloat ff p r.computed ++ '\t' :: fmtFloat ff p r.truth ++
    '\t' :: fmtFloat ff p r.delta ++ '\t' ::
    (if r.withinEps then "true".toList else "false".toList)

/-- `io::format_comparison_results`: the fixed header line, then one
tab-separated row per index, newline separated, no trailing newline. -/
def format_comparison_results (computed truth : List ℚ) (ff : FloatFormat) (p : ℕ)
    (eps : ℚ) : Except CmpError (List Char) :=
  (format_comparison_rows computed truth eps).map
    (fun rows =>
      "% computed \t true \t |delta| \t |delta|<=epsilon\n".toList ++
        sepUnlessLast ['\n'] (renderCmpRow ff p) rows)

/-! ## Character-class facts -/

theorem isWsC_of_isDigitC {c : Char} (h : isDigitC c = true) : isWsC c = false := by
  simp only [isWsC, Bool.or_eq_false_iff, beq_eq_false_iff_ne, ne_eq]
  refine ⟨⟨⟨?_, ?_⟩, ?_⟩, ?_⟩ <;> rintro rfl <;> exact absurd h (by decide)

theorem ne_of_isDigitC {c c' : Char} (h : isDigitC c = true) (h' : isDigitC c' = false) :
    c ≠ c' := by
  rintro rfl; rw [h] at h'; cases h'

theorem digitChar_isDigitC {d : ℕ} (h : d < 10) : isDigitC (digitChar d) = true := by
  revert h; revert d; decide

theorem digitVal_digitChar {d : ℕ} (h : d < 10) : digitVal (digitChar d) = d := by
  revert h; revert d; decide

/-! ## Decimal digit strings -/

theorem natDigitsAux_zero (fuel : ℕ) : natDigitsAux fuel 0 = [] := by
  cases fuel <;> simp [natDigitsAux]

theorem natDigitsAux_digits :
    ∀ fuel n, n ≤ fuel → ∀ c ∈ natDigitsAux fuel n, isDigitC c = true := by
  intro fuel
  induction fuel with
  | zero => intro n _ c hc; simp [natDigitsAux] at hc
  | succ fuel ih =>
    intro n hn c hc
    by_cases h0 : n = 0
    · subst h0; simp [natDigitsAux] at hc
    · rw [natDigitsAux, if_neg h0] at hc
      rcases List.mem_append.1 hc with h | h
      · exact ih (n / 10) (by omega) c h
      · rw [List.mem_singleton] at h
        subst h
        exact digitChar_isDigitC (Nat.mod_lt _ (by norm_num))

theorem digitsToNat_append_singleton (l : List Char) (c : Char) :
    digitsToNat (l ++ [c]) = 10 * digitsToNat l + digitVal c := by
  simp [digitsToNat, List.foldl_append]

theorem digitsToNat_natDigitsAux :
    ∀ fuel n, n ≠ 0 → n ≤ fuel → digitsToNat (natDigitsAux fuel n) = n := by
  intro fuel
  induction fuel with
  | zero => intro n h0 hn; omega
  | succ fuel ih =>
    intro n h0 hn
    rw [natDigitsAux, if_neg h0, digitsToNat_append_singleton,
      digitVal_digitChar (Nat.mod_lt _ (by norm_num))]
    by_cases hd : n / 10 = 0
    · rw [hd, natDigitsAux_zero]
      simp only [digitsToNat, List.foldl_nil]
      omega
    · rw [ih (n / 10) hd (by omega)]
      omega

theorem natDigitsAux_length_le :
    ∀ fuel n k, n ≤ fuel → n < 10 ^ k → (natDigitsAux fuel n).length ≤ k := by
  intro fuel
  induction fuel with
  | zero => intro n k _ _; simp [natDigitsAux]
  | succ fuel ih =>
    intro n k hn hk
    by_cases h0 : n = 0
    · subst h0; simp [natDigitsAux]
    · rw [natDigitsAux, if_neg h0]
      have hk1 : 1 ≤ k := by
        rcases Nat.eq_zero_or_pos k with h | h
        · subst h; simp at hk; omega
        · exact h
      have hdiv : n / 10 < 10 ^ (k - 1) := by
        have h10 : 10 ^ k = 10 ^ (k - 1) * 10 := by
          rw [← pow_succ]
          congr 1
          omega
        rw [h10] at hk
        exact Nat.div_lt_of_lt_mul (by omega)
      have := ih (n / 10) (k - 1) (by omega) hdiv
      simp only [List.length_append, List.length_singleton]
      omega

theorem natDigitsAux_ne_nil : ∀ fuel n, n ≠ 0 → n ≤ fuel → natDigitsAux fuel n ≠ [] := by
  intro fuel n h0 hn
  cases fuel with
  | zero => omega
  | succ m => rw [natDigitsAux, if_neg h0]; simp

theorem natToChars_ne_nil (n : ℕ) : natToChars n ≠ [] := by
  unfold natToChars
  split
  · simp
  · next h0 => exact natDigitsAux_ne_nil n n h0 le_rfl

theorem natToChars_digits {n : ℕ} : ∀ c ∈ natToChars n, isDigitC c = true := by
  intro c hc
  unfold natToChars at hc
  split at hc
  · simp only [List.mem_singleton] at hc; subst hc; decide
  · exact natDigitsAux_digits n n le_rfl c hc

theorem digitsToNat_natToChars (n : ℕ) : digitsToNat (natToChars n) = n := by
  unfold natToChars
  split
  · next h => subst h; decide
  · next h => exact digitsToNat_natDigitsAux n n h le_rfl

theorem natToChars_length_le {n k : ℕ} (hk : n < 10 ^ k) (h1 : 1 ≤ k) :
    (natToChars n).length ≤ k := by
  unfold natToChars
  split
  · simpa using h1
  · exact natDigitsAux_length_le n n k le_rfl hk

theorem digitsToNat_replicate_zero (k : ℕ) (cs : List Char) :
    digitsToNat (List.replicate k '0' ++ cs) = digitsToNat cs := by
  induction k with
  | zero => simp
  | succ m ih =>
    rw [List.replicate_succ, List.cons_append]
    simpa [digitsToNat] using ih

theorem padZeros_digits {p : ℕ} {cs : List Char} (h : ∀ c ∈ cs, isDigitC c = true) :
    ∀ c ∈ padZeros p cs, isDigitC c = true := by
  intro c hc
  rcases List.mem_append.1 hc with h' | h'
  · rw [List.eq_of_mem_replicate h']; decide
  · exact h c h'

theorem padZeros_length {p : ℕ} {cs : List Char} (h : cs.length ≤ p) :
    (padZeros p cs).length = p := by
  simp [padZeros]
  omega

theorem digitsToNat_padZeros (p : ℕ) (cs : List Char) :
    digitsToNat (padZeros p cs) = digitsToNat cs :=
  digitsToNat_replicate_zero _ _

/-! ## `split_whitespace` -/

theorem takeWhile_append_of_all {p : Char → Bool} :
    ∀ {A B : List Char}, (∀ c ∈ A, p c = true) → (∀ b, B.head? = some b → p b = false) →
      (A ++ B).takeWhile p = A := by
  intro A
  induction A with
  | nil =>
    intro B _ hB
    cases B with
    | nil => simp
    | cons b B' => simpa [List.takeWhile_cons] using hB b rfl
  | cons a A' ih =>
    intro B hA hB
    rw [List.cons_append, List.takeWhile_cons_of_pos (hA a (by simp))]
    rw [ih (fun c hc => hA c (by simp [hc])) hB]

theorem dropWhile_append_of_all {p : Char → Bool} :
    ∀ {A B : List Char}, (∀ c ∈ A, p c = true) → (∀ b, B.head? = some b → p b = false) →
      (A ++ B).dropWhile p = B := by
  intro A
  induction A with
  | nil =>
    intro B _ hB
    cases B with
    | nil => simp
    | cons b B' =>
      rw [List.nil_append, List.dropWhile_cons_of_neg (by rw [hB b rfl]; simp)]
  | cons a A' ih =>
    intro B hA hB
    rw [List.cons_append, List.dropWhile_cons_of_pos (hA a (by simp))]
    exact ih (fun c hc => hA c (by simp [hc])) hB

theorem length_dropWhile_le (p : Char → Bool) (l : List Char) :
    (l.dropWhile p).length ≤ l.length := by
  induction l with
  | nil => simp
  | cons a l' ih =>
    rw [List.dropWhile_cons]
    split
    · simpa using Nat.le_succ_of_le ih
    · simp

theorem splitWsF_congr :
    ∀ fuel l fuel', l.length ≤ fuel → l.length ≤ fuel' →
      splitWsF fuel l = splitWsF fuel' l := by
  intro fuel
  induction fuel with
  | zero =>
    intro l fuel' hl _
    rw [Nat.le_zero, List.length_eq_zero] at hl
    subst hl
    cases fuel' <;> simp [splitWsF]
  | succ fuel ih =>
    intro l fuel' hl hl'
    cases l with
    | nil => cases fuel' <;> simp [splitWsF]
    | cons c rest =>
      cases fuel' with
      | zero => simp at hl'
      | succ fuel'' =>
        simp only [splitWsF]
        split
        · exact ih rest fuel'' (by simpa using hl) (by simpa using hl')
        · rw [ih (rest.dropWhile fun x => !isWsC x) fuel''
            (le_trans (length_dropWhile_le _ rest) (by simpa using hl))
            (le_trans (length_dropWhile_le _ rest) (by simpa using hl'))]

theorem splitWsF_nil (fuel : ℕ) : splitWsF fuel [] = [] := by
  cases fuel <;> simp [splitWsF]

theorem splitWsF_any {fuel : ℕ} {l : List Char} (h : l.length ≤ fuel) :
    splitWsF fuel l = splitWs l :=
  splitWsF_congr fuel l l.length h le_rfl

theorem splitWs_nil : splitWs [] = [] := rfl

theorem splitWs_ws_cons {c : Char} (h : isWsC c = true) (l : List Char) :
    splitWs (c :: l) = splitWs l := by
  show splitWsF (c :: l).length (c :: l) = _
  rw [List.length_cons, splitWsF, if_pos h]
  rfl

theorem splitWs_token_sep {t : List Char} {s : Char} (ht : t ≠ [])
    (hall : ∀ c ∈ t, isWsC c = false) (hs : isWsC s = true) (rest : List Char) :
    splitWs (t ++ s :: rest) = t :: splitWs rest := by
  rcases t with _ | ⟨a, t'⟩
  · exact absurd rfl ht
  · have hA : ∀ c ∈ t', (fun x => !isWsC x) c = true := by
      intro c hc
      show (!isWsC c) = true
      rw [hall c (by simp [hc])]
      rfl
    have hB : ∀ b, (s :: rest).head? = some b → (fun x => !isWsC x) b = false := by
      intro b hb
      simp only [List.head?_cons, Option.some_inj] at hb
      show (!isWsC b) = false
      rw [← hb, hs]
      rfl
    have htw : (t' ++ s :: rest).takeWhile (fun x => !isWsC x) = t' :=
      takeWhile_append_of_all hA hB
    have hdw : (t' ++ s :: rest).dropWhile (fun x => !isWsC x) = s :: rest :=
      dropWhile_append_of_all hA hB
    show splitWsF ((a :: t') ++ s :: rest).length ((a :: t') ++ s :: rest) = _
    rw [List.cons_append, List.length_cons, splitWsF,
      if_neg (by rw [hall a (by simp)]; simp)]
    rw [htw, hdw, splitWsF_any (by simp), splitWs_ws_cons hs]

theorem splitWs_single {t : List Char} (ht : t ≠ [])
    (hall : ∀ c ∈ t, isWsC c = false) : splitWs t = [t] := by
  rcases t with _ | ⟨a, t'⟩
  · exact absurd rfl ht
  · have hA : ∀ c ∈ t', (fun x => !isWsC x) c = true := by
      intro c hc
      show (!isWsC c) = true
      rw [hall c (by simp [hc])]
      rfl
    have hB : ∀ b, ([] : List Char).head? = some b → (fun x => !isWsC x) b = false := by
      intro b hb; simp at hb
    have htw : t'.takeWhile (fun x => !isWsC x) = t' := by
      have := takeWhile_append_of_all (A := t') (B := []) hA hB
      simpa using this
    have hdw : t'.dropWhile (fun x => !isWsC x) = [] := by
      have := dropWhile_append_of_all (A := t') (B := []) hA hB
      simpa using this
    show splitWsF (a :: t').length (a :: t') = _
    rw [List.length_cons, splitWsF, if_neg (by rw [hall a (by simp)]; simp)]
    rw [htw, hdw, splitWsF_nil]

/-! ## Parsing printed numbers -/

theorem stripSign_digit {c : Char} {cs : List Char} (h : isDigitC c = true) :
    stripSign (c :: cs) = (false, c :: cs) := by
  show (if c = '-' then ((true : Bool), cs) else if c = '+' then (false, cs)
    else (false, c :: cs)) = (false, c :: cs)
  rw [if_neg (ne_of_isDigitC h (by decide)), if_neg (ne_of_isDigitC h (by decide))]

theorem stripSign_neg (cs : List Char) : stripSign ('-' :: cs) = (true, cs) := rfl

theorem natToChars_cons (n : ℕ) :
    ∃ c t, natToChars n = c :: t ∧ isDigitC c = true ∧ ∀ x ∈ t, isDigitC x = true := by
  rcases h : natToChars n with _ | ⟨c, t⟩
  · exact absurd h (natToChars_ne_nil n)
  · refine ⟨c, t, rfl, ?_, ?_⟩
    · exact natToChars_digits c (by rw [h]; simp)
    · intro x hx
      exact natToChars_digits x (by rw [h]; simp [hx])

theorem dropPlus_eq {c : Char} (cs : List Char) (h : c ≠ '+') :
    (match c :: cs with | '+' :: t => t | _ => c :: cs) = c :: cs := by
  split
  · next heq =>
    rw [List.cons.injEq] at heq
    exact absurd heq.1 h
  · rfl

theorem parseNat_natToChars (n : ℕ) : parseNat? (natToChars n) = some n := by
  obtain ⟨c, t, e, hc, ht⟩ := natToChars_cons n
  unfold parseNat?
  rw [e, dropPlus_eq t (ne_of_isDigitC hc (by decide))]
  rw [if_pos ?side]
  case side =>
    refine ⟨by simp, ?_⟩
    rw [List.all_eq_true]
    intro x hx
    rcases List.mem_cons.1 hx with h | h
    · rw [h]; exact hc
    · exact ht x h
  rw [← e, digitsToNat_natToChars]

theorem parseExp_intToChars (e : ℤ) : parseExp? (intToChars e) = some e := by
  unfold parseExp? intToChars
  by_cases he : e < 0
  · rw [if_pos he, stripSign_neg]
    rw [if_pos ?sideA]
    case sideA =>
      refine ⟨natToChars_ne_nil _, ?_⟩
      rw [List.all_eq_true]
      exact fun x hx => natToChars_digits x hx
    rw [if_pos rfl, digitsToNat_natToChars]
    congr 1
    omega
  · obtain ⟨c, t, ec, hc, _⟩ := natToChars_cons e.toNat
    rw [if_neg he, ec, stripSign_digit hc, ← ec]
    rw [if_pos ?sideB]
    case sideB =>
      refine ⟨natToChars_ne_nil _, ?_⟩
      rw [List.all_eq_true]
      exact fun x hx => natToChars_digits x hx
    rw [if_neg (by simp), digitsToNat_natToChars]
    simp only [one_mul, Option.some_inj]
    omega

theorem fixed_value (m p : ℕ) :
    ((m / 10 ^ p : ℕ) : ℚ) + ((m % 10 ^ p : ℕ) : ℚ) / 10 ^ p = (m : ℚ) / 10 ^ p := by
  have h10 : (10 : ℚ) ^ p ≠ 0 := by positivity
  rw [eq_div_iff h10, add_mul, div_mul_cancel₀ _ h10]
  norm_cast
  rw [Nat.mul_comm]
  exact Nat.div_add_mod m (10 ^ p)

theorem digitsToNat_nil : digitsToNat [] = 0 := rfl

theorem fixedChars_cons (m p : ℕ) : ∃ c t, fixedChars m p = c :: t ∧ isDigitC c = true := by
  unfold fixedChars
  split
  · obtain ⟨c, t, e, hc, _⟩ := natToChars_cons m
    exact ⟨c, t, e, hc⟩
  · obtain ⟨c, t, e, hc, _⟩ := natToChars_cons (m / 10 ^ p)
    exact ⟨c, t ++ '.' :: padZeros p (natToChars (m % 10 ^ p)), by rw [e]; rfl, hc⟩

theorem decide_head_dot_false {suffix : List Char}
    (h : ∀ b, suffix.head? = some b → b ≠ '.') :
    decide (suffix.head? = some '.') = false := by
  cases suffix with
  | nil => rfl
  | cons b t =>
    simp only [List.head?_cons, decide_eq_false_iff_not, ne_eq, Option.some_inj]
    exact h b rfl

theorem parseFloat_sign_fixed (neg : Bool) (m p : ℕ) (suffix : List Char)
    (hsd : ∀ b, suffix.head? = some b → isDigitC b = false)
    (hsdot : ∀ b, suffix.head? = some b → b ≠ '.') :
    parseFloat? ((if neg then ['-'] else []) ++ (fixedChars m p ++ suffix)) =
      match suffix with
      | [] => some ((if neg then (-1 : ℚ) else 1) * ((m : ℚ) / 10 ^ p))
      | c :: t =>
        if c = 'e' ∨ c = 'E' then
          (parseExp? t).map
            (fun ex => (if neg then (-1 : ℚ) else 1) * ((m : ℚ) / 10 ^ p) * (10 : ℚ) ^ ex)
        else none := by
  have hstrip : stripSign ((if neg then ['-'] else []) ++ (fixedChars m p ++ suffix)) =
      (neg, fixedChars m p ++ suffix) := by
    obtain ⟨c, t, e, hc⟩ := fixedChars_cons m p
    cases neg with
    | false =>
      rw [if_neg (by simp), List.nil_append, e, List.cons_append, stripSign_digit hc,
        ← List.cons_append, ← e]
    | true =>
      rw [if_pos rfl, List.singleton_append]
      exact stripSign_neg _
  by_cases hp : p = 0
  · subst hp
    have hfc : fixedChars m 0 = natToChars m := by rw [fixedChars, if_pos rfl]
    have htw : (natToChars m ++ suffix).takeWhile isDigitC = natToChars m :=
      takeWhile_append_of_all (fun c hc => natToChars_digits c hc) hsd
    have hdw : (natToChars m ++ suffix).dropWhile isDigitC = suffix :=
      dropWhile_append_of_all (fun c hc => natToChars_digits c hc) hsd
    rw [hfc] at hstrip ⊢
    simp only [parseFloat?, hstrip, htw, hdw, decide_head_dot_false hsdot,
      Bool.false_eq_true, if_false, digitsToNat_natToChars, digitsToNat_nil,
      List.length_nil, Nat.cast_zero, pow_zero, ne_eq, natToChars_ne_nil m,
      not_false_eq_true, false_and, zero_div, add_zero, div_one]
    cases suffix <;> rfl
  · have h1p : 1 ≤ p := Nat.one_le_iff_ne_zero.2 hp
    have hmod : m % 10 ^ p < 10 ^ p := Nat.mod_lt _ (by positivity)
    have hlen : (natToChars (m % 10 ^ p)).length ≤ p := natToChars_length_le hmod h1p
    have hfc : fixedChars m p =
        natToChars (m / 10 ^ p) ++ '.' :: padZeros p (natToChars (m % 10 ^ p)) := by
      rw [fixedChars, if_neg hp]
    have htw : (fixedChars m p ++ suffix).takeWhile isDigitC = natToChars (m / 10 ^ p) := by
      rw [hfc, List.append_assoc, List.cons_append]
      exact takeWhile_append_of_all (fun c hc => natToChars_digits c hc)
        (fun b hb => by rw [List.head?_cons, Option.some_inj] at hb; rw [← hb]; rfl)
    have hdw : (fixedChars m p ++ suffix).dropWhile isDigitC =
        '.' :: (padZeros p (natToChars (m % 10 ^ p)) ++ suffix) := by
      rw [hfc, List.append_assoc, List.cons_append]
      exact dropWhile_append_of_all (fun c hc => natToChars_digits c hc)
        (fun b hb => by rw [List.head?_cons, Option.some_inj] at hb; rw [← hb]; rfl)
    have htw2 : (padZeros p (natToChars (m % 10 ^ p)) ++ suffix).takeWhile isDigitC =
        padZeros p (natToChars (m % 10 ^ p)) :=
      takeWhile_append_of_all (padZeros_digits (fun c hc => natToChars_digits c hc)) hsd
    have hdw2 : (padZeros p (natToChars (m % 10 ^ p)) ++ suffix).dropWhile isDigitC =
        suffix :=
      dropWhile_append_of_all (padZeros_digits (fun c hc => natToChars_digits c hc)) hsd
    have hval : ((digitsToNat (natToChars (m / 10 ^ p)) : ℚ) +
        (digitsToNat (padZeros p (natToChars (m % 10 ^ p))) : ℚ) /
          10 ^ (padZeros p (natToChars (m % 10 ^ p))).length) = (m : ℚ) / 10 ^ p := by
      rw [digitsToNat_natToChars, digitsToNat_padZeros, digitsToNat_natToChars,
        padZeros_length hlen]
      exact fixed_value m p
    simp only [parseFloat?, hstrip, htw, hdw, List.head?_cons, List.tail_cons,
      Option.some_inj, decide_eq_true_eq, if_pos, htw2, hdw2, ne_eq,
      natToChars_ne_nil (m / 10 ^ p), not_false_eq_true, false_and, hval]
    cases suffix <;> rfl

theorem parseFloat_fixed_pos (m p : ℕ) :
    parseFloat? (fixedChars m p) = some ((m : ℚ) / 10 ^ p) := by
  have h := parseFloat_sign_fixed false m p [] (by simp) (by simp)
  simpa using h

theorem parseFloat_fixed_neg (m p : ℕ) :
    parseFloat? ('-' :: fixedChars m p) = some (-((m : ℚ) / 10 ^ p)) := by
  have h := parseFloat_sign_fixed true m p [] (by simp) (by simp)
  simpa using h

theorem parseFloat_fixed_exp_pos (m p : ℕ) (t : List Char) (ex : ℤ)
    (ht : parseExp? t = some ex) :
    parseFloat? (fixedChars m p ++ 'e' :: t) = some ((m : ℚ) / 10 ^ p * (10 : ℚ) ^ ex) := by
  have h := parseFloat_sign_fixed false m p ('e' :: t)
    (fun b hb => by rw [List.head?_cons, Option.some_inj] at hb; rw [← hb]; decide)
    (fun b hb => by rw [List.head?_cons, Option.some_inj] at hb; rw [← hb]; decide)
  simpa [ht] using h

theorem parseFloat_fixed_exp_neg (m p : ℕ) (t : List Char) (ex : ℤ)
    (ht : parseExp? t = some ex) :
    parseFloat? ('-' :: (fixedChars m p ++ 'e' :: t)) =
      some (-((m : ℚ) / 10 ^ p * (10 : ℚ) ^ ex)) := by
  have h := parseFloat_sign_fixed true m p ('e' :: t)
    (fun b hb => by rw [List.head?_cons, Option.some_inj] at hb; rw [← hb]; decide)
    (fun b hb => by rw [List.head?_cons, Option.some_inj] at hb; rw [← hb]; decide)
  simpa [ht] using h

theorem parseFloat_fmtDecimal (x : ℚ) (p : ℕ) :
    parseFloat? (fmtDecimal x p) = some (fmtVal .Decimal p x) := by
  unfold fmtDecimal fmtVal
  by_cases hx : x < 0
  · rw [if_pos hx, if_pos hx, List.singleton_append, parseFloat_fixed_neg]
    congr 1
    ring
  · rw [if_neg hx, if_neg hx, List.nil_append, parseFloat_fixed_pos]
    congr 1
    ring

theorem zpow_cast_sub (me2 : ℤ) (p m1 : ℕ) :
    ((m1 : ℚ) / 10 ^ p * (10 : ℚ) ^ me2) = (m1 : ℚ) * (10 : ℚ) ^ (me2 - (p : ℤ)) := by
  have h10 : (10 : ℚ) ≠ 0 := by norm_num
  rw [zpow_sub₀ h10, zpow_natCast]
  field_simp

theorem parseFloat_fmtScientific (x : ℚ) (p : ℕ) :
    parseFloat? (fmtScientific x p) = some (fmtVal .Scientific p x) := by
  unfold fmtScientific fmtVal
  by_cases h0 : x = 0
  · rw [if_pos h0, if_pos h0]
    have hexp : parseExp? ['0'] = some 0 := by decide
    rw [show (fixedChars 0 p ++ ['e', '0'] : List Char) = fixedChars 0 p ++ 'e' :: ['0']
      from rfl]
    rw [parseFloat_fixed_exp_pos 0 p ['0'] 0 hexp]
    norm_num
  · rw [if_neg h0, if_neg h0]
    dsimp only
    set me : ℕ × ℤ :=
      if (rnd (|x| * (10 : ℚ) ^ ((p : ℤ) - qexp |x|))).toNat = 10 ^ (p + 1) then
        ((10 ^ p : ℕ), qexp |x| + 1)
      else ((rnd (|x| * (10 : ℚ) ^ ((p : ℤ) - qexp |x|))).toNat, qexp |x|) with hme
    by_cases hx : x < 0
    · rw [if_pos hx, if_pos hx, List.singleton_append, List.cons_append,
        parseFloat_fixed_exp_neg me.1 p (intToChars me.2) me.2 (parseExp_intToChars me.2)]
      rw [Option.some_inj, zpow_cast_sub]
      ring
    · rw [if_neg hx, if_neg hx, List.nil_append,
        parseFloat_fixed_exp_pos me.1 p (intToChars me.2) me.2 (parseExp_intToChars me.2)]
      rw [Option.some_inj, zpow_cast_sub]
      ring

/-- The value printed by `fmtFloat` parses back exactly to `fmtVal`. -/
theorem parseFloat_fmtFloat (ff : FloatFormat) (p : ℕ) (x : ℚ) :
    parseFloat? (fmtFloat ff p x) = some (fmtVal ff p x) := by
  cases ff
  · exact parseFloat_fmtScientific x p
  · exact parseFloat_fmtDecimal x p

/-! ## Rounding error bounds -/

theorem rnd_err (q : ℚ) : |((rnd q : ℤ) : ℚ) - q| ≤ 1 / 2 := by
  simp only [rnd]
  have hfl : ((⌊q⌋ : ℤ) : ℚ) ≤ q := Int.floor_le q
  have hfu : q < ((⌊q⌋ : ℤ) : ℚ) + 1 := Int.lt_floor_add_one q
  split
  · next h => rw [abs_sub_comm, abs_of_nonneg (by linarith)]; linarith
  · next h =>
    push_neg at h
    split
    · next h2 => push_cast; rw [abs_of_nonneg (by linarith)]; linarith
    · next h2 =>
      push_neg at h2
      have heq : q - ((⌊q⌋ : ℤ) : ℚ) = 1 / 2 := le_antisymm h2 h
      split
      · rw [abs_sub_comm, abs_of_nonneg (by linarith)]; linarith
      · push_cast; rw [abs_of_nonneg (by linarith)]; linarith

theorem rnd_nonneg {q : ℚ} (h : 0 ≤ q) : 0 ≤ rnd q := by
  have hfl : (0 : ℤ) ≤ ⌊q⌋ := Int.floor_nonneg.2 h
  simp only [rnd]
  split
  · exact hfl
  · split
    · omega
    · split <;> omega

theorem rnd_toNat_err {q : ℚ} (h : 0 ≤ q) : |(((rnd q).toNat : ℕ) : ℚ) - q| ≤ 1 / 2 := by
  rw [show (((rnd q).toNat : ℕ) : ℚ) = (((rnd q).toNat : ℤ) : ℚ) by push_cast; ring,
    Int.toNat_of_nonneg (rnd_nonneg h)]
  exact rnd_err q

/-! ## The decimal exponent `qexp` -/

theorem countDigits_spec :
    ∀ fuel m, 1 ≤ m → m ≤ fuel →
      10 ^ countDigits fuel m ≤ m ∧ m < 10 ^ (countDigits fuel m + 1) := by
  intro fuel
  induction fuel with
  | zero => intro m h1 h2; omega
  | succ fuel ih =>
    intro m h1 h2
    rw [countDigits]
    split
    · next h => simpa using ⟨h1, h⟩
    · next h =>
      push_neg at h
      have hd1 : 1 ≤ m / 10 := by omega
      have hd2 : m / 10 ≤ fuel := by omega
      obtain ⟨hlo, hhi⟩ := ih (m / 10) hd1 hd2
      constructor
      · calc 10 ^ (countDigits fuel (m / 10) + 1) = 10 ^ countDigits fuel (m / 10) * 10 := by
              rw [pow_succ]
          _ ≤ m / 10 * 10 := by exact Nat.mul_le_mul_right 10 hlo
          _ ≤ m := Nat.div_mul_le_self m 10
      · calc m < (m / 10 + 1) * 10 := by omega
          _ ≤ 10 ^ (countDigits fuel (m / 10) + 1) * 10 := by
              exact Nat.mul_le_mul_right 10 hhi
          _ = 10 ^ (countDigits fuel (m / 10) + 1 + 1) := (pow_succ 10 _).symm

theorem findScale_le_zero {d n : ℕ} (h : d ≤ n) (fuel : ℕ) : findScale d n fuel = 0 := by
  cases fuel with
  | zero => rfl
  | succ fuel => rw [findScale, if_pos h]

theorem findScale_spec (d : ℕ) :
    ∀ fuel n, d ≤ n * 10 ^ fuel →
      d ≤ n * 10 ^ findScale d n fuel ∧
        (¬d ≤ n → ¬d ≤ n * 10 ^ (findScale d n fuel - 1) ∧ 1 ≤ findScale d n fuel) := by
  intro fuel
  induction fuel with
  | zero =>
    intro n hfuel
    simp only [pow_zero, Nat.mul_one] at hfuel
    rw [findScale_le_zero hfuel]
    exact ⟨by simpa using hfuel, fun hn => absurd hfuel hn⟩
  | succ fuel ih =>
    intro n hfuel
    rw [findScale]
    split
    · next h => exact ⟨by simpa using h, fun hn => absurd h hn⟩
    · next h =>
      push_neg at h
      have hfuel' : d ≤ n * 10 * 10 ^ fuel := by
        rw [Nat.mul_assoc, ← pow_succ']
        exact hfuel
      obtain ⟨hA, hB⟩ := ih (n * 10) hfuel'
      have hfirst : d ≤ n * 10 ^ (findScale d (n * 10) fuel + 1) := by
        rw [pow_succ', ← Nat.mul_assoc]
        exact hA
      refine ⟨hfirst, fun _ => ⟨?_, by omega⟩⟩
      rcases Nat.eq_zero_or_pos (findScale d (n * 10) fuel) with hk | hk
      · rw [hk]
        simpa using Nat.lt_of_not_le (by omega)
      · have hnot10 : ¬d ≤ n * 10 := by
          intro hcon
          rw [findScale_le_zero hcon fuel] at hk
          omega
        obtain ⟨hB1, hB2⟩ := hB hnot10
        have : n * 10 * 10 ^ (findScale d (n * 10) fuel - 1) =
            n * 10 ^ (findScale d (n * 10) fuel - 1 + 1) := by
          rw [pow_succ', ← Nat.mul_assoc]
        rw [this] at hB1
        have heq : findScale d (n * 10) fuel - 1 + 1 = findScale d (n * 10) fuel := by omega
        rw [heq] at hB1
        simpa using hB1

theorem qexp_core (n d : ℕ) (hn1 : 1 ≤ n) (hd : 0 < d) :
    (10 : ℚ) ^ (if d ≤ n then (countDigits (n / d) (n / d) : ℤ) else -(findScale d n d : ℤ)) ≤
        (n : ℚ) / (d : ℚ) ∧
      (n : ℚ) / (d : ℚ) <
        (10 : ℚ) ^
          ((if d ≤ n then (countDigits (n / d) (n / d) : ℤ) else -(findScale d n d : ℤ)) + 1) := by
  have hdQ : (0 : ℚ) < (d : ℚ) := by exact_mod_cast hd
  split
  · next hnd =>
    have hm1 : 1 ≤ n / d := (Nat.one_le_div_iff hd).2 hnd
    obtain ⟨hlo, hhi⟩ := countDigits_spec (n / d) (n / d) hm1 le_rfl
    have hmx : ((n / d : ℕ) : ℚ) ≤ (n : ℚ) / (d : ℚ) := by
      rw [le_div_iff₀ hdQ]
      exact_mod_cast Nat.div_mul_le_self n d
    have hxm : (n : ℚ) / (d : ℚ) < ((n / d + 1 : ℕ) : ℚ) := by
      rw [div_lt_iff₀ hdQ]
      have hmod := Nat.div_add_mod n d
      have hmlt := Nat.mod_lt n hd
      have hdist : (n / d + 1) * d = d * (n / d) + d := by ring
      have : n < (n / d + 1) * d := by omega
      exact_mod_cast this
    constructor
    · rw [zpow_natCast]
      calc (10 : ℚ) ^ countDigits (n / d) (n / d)
          = ((10 ^ countDigits (n / d) (n / d) : ℕ) : ℚ) := by push_cast; ring
        _ ≤ ((n / d : ℕ) : ℚ) := by exact_mod_cast hlo
        _ ≤ (n : ℚ) / (d : ℚ) := hmx
    · have hcast : ((countDigits (n / d) (n / d) : ℕ) : ℤ) + 1 =
          (((countDigits (n / d) (n / d) + 1 : ℕ)) : ℤ) := by push_cast; ring
      rw [hcast, zpow_natCast]
      calc (n : ℚ) / (d : ℚ) < ((n / d + 1 : ℕ) : ℚ) := hxm
        _ ≤ ((10 ^ (countDigits (n / d) (n / d) + 1) : ℕ) : ℚ) := by exact_mod_cast hhi
        _ = (10 : ℚ) ^ (countDigits (n / d) (n / d) + 1) := by push_cast; ring
  · next hnd =>
    push_neg at hnd
    have hfuel : d ≤ n * 10 ^ d :=
      le_trans (le_of_lt (Nat.lt_pow_self (by norm_num) d))
        (Nat.le_mul_of_pos_left _ (by omega))
    obtain ⟨hA, hB⟩ := findScale_spec d d n hfuel
    obtain ⟨hB1, hB2⟩ := hB (by omega)
    have hpow : (0 : ℚ) < 10 ^ findScale d n d := by positivity
    constructor
    · rw [zpow_neg, zpow_natCast, ← one_div, div_le_div_iff₀ hpow hdQ]
      have : (d : ℚ) ≤ (n : ℚ) * 10 ^ findScale d n d := by exact_mod_cast hA
      linarith
    · have hk1 : 1 ≤ findScale d n d := hB2
      have hcast : -((findScale d n d : ℕ) : ℤ) + 1 = -(((findScale d n d - 1 : ℕ)) : ℤ) := by
        push_cast [hk1]
        ring
      have hpow2 : (0 : ℚ) < 10 ^ (findScale d n d - 1) := by positivity
      rw [hcast, zpow_neg, zpow_natCast, ← one_div, div_lt_div_iff₀ hdQ hpow2]
      have : (n : ℚ) * 10 ^ (findScale d n d - 1) < (d : ℚ) := by
        exact_mod_cast Nat.lt_of_not_le hB1
      linarith

theorem qexp_spec {x : ℚ} (hx : 0 < x) :
    (10 : ℚ) ^ qexp x ≤ x ∧ x < (10 : ℚ) ^ (qexp x + 1) := by
  have hnum : 0 < x.num := Rat.num_pos.2 hx
  have hn1 : 1 ≤ x.num.toNat := by omega
  have hnQ : (x.num.toNat : ℚ) = (x.num : ℚ) := by
    have h1 : ((x.num.toNat : ℤ) : ℚ) = (x.num : ℚ) := by
      rw [Int.toNat_of_nonneg (le_of_lt hnum)]
    exact_mod_cast h1
  have hxeq : (x.num.toNat : ℚ) / (x.den : ℚ) = x := by rw [hnQ]; exact Rat.num_div_den x
  have hcore := qexp_core x.num.toNat x.den hn1 x.den_pos
  rw [hxeq] at hcore
  simp only [qexp]
  exact hcore

/-! ## Error bounds for the printed values -/

theorem fmtVal_dec_err (p : ℕ) (x : ℚ) : |fmtVal .Decimal p x - x| ≤ 1 / 10 ^ p := by
  have hq : (0 : ℚ) ≤ |x| * 10 ^ p := by positivity
  have herr := rnd_toNat_err hq
  have hpow : (0 : ℚ) < 10 ^ p := by positivity
  have key : abs (((rnd (|x| * 10 ^ p)).toNat : ℚ) / 10 ^ p - |x|) ≤ 1 / 2 * (1 / 10 ^ p) := by
    have hsplit : ((rnd (|x| * 10 ^ p)).toNat : ℚ) / 10 ^ p - |x| =
        (((rnd (|x| * 10 ^ p)).toNat : ℚ) - |x| * 10 ^ p) / 10 ^ p := by
      field_simp
      ring
    rw [hsplit, abs_div, abs_of_pos hpow]
    calc abs (((rnd (|x| * 10 ^ p)).toNat : ℚ) - |x| * 10 ^ p) / 10 ^ p
          ≤ (1 / 2) / 10 ^ p := by gcongr
      _ = 1 / 2 * (1 / 10 ^ p) := by ring
  have hhalf : (1 : ℚ) / 2 * (1 / 10 ^ p) ≤ 1 / 10 ^ p := by
    have h1 : (0 : ℚ) < 1 / 10 ^ p := by positivity
    linarith
  simp only [fmtVal]
  by_cases hx : x < 0
  · rw [if_pos hx]
    have hxabs : |x| = -x := abs_of_neg hx
    have heq : (-1 : ℚ) * ((rnd (|x| * 10 ^ p)).toNat : ℚ) / 10 ^ p - x =
        -(((rnd (|x| * 10 ^ p)).toNat : ℚ) / 10 ^ p - |x|) := by
      rw [hxabs]; ring
    rw [heq, abs_neg]
    exact le_trans key hhalf
  · rw [if_neg hx]
    have hxabs : |x| = x := abs_of_nonneg (le_of_not_lt hx)
    have heq : (1 : ℚ) * ((rnd (|x| * 10 ^ p)).toNat : ℚ) / 10 ^ p - x =
        ((rnd (|x| * 10 ^ p)).toNat : ℚ) / 10 ^ p - |x| := by
      rw [hxabs]; ring
    rw [heq]
    exact le_trans key hhalf

theorem fmtVal_sci_err (p : ℕ) {x : ℚ} (hx10 : |x| < 10) :
    |fmtVal .Scientific p x - x| ≤ 1 / 10 ^ p := by
  by_cases h0 : x = 0
  · subst h0
    simp only [fmtVal, if_pos rfl]
    simp only [abs_zero, sub_zero]
    positivity
  · simp only [fmtVal, if_neg h0]
    set e0 := qexp |x| with he0
    set q := |x| * (10 : ℚ) ^ ((p : ℤ) - e0) with hqdef
    set M0 := (rnd q).toNat with hM0def
    set me : ℕ × ℤ := if M0 = 10 ^ (p + 1) then ((10 ^ p : ℕ), e0 + 1) else (M0, e0) with hme
    have habs : (0 : ℚ) < |x| := abs_pos.2 h0
    obtain ⟨hlo, hhi⟩ := qexp_spec habs
    have hq0 : (0 : ℚ) ≤ q := by rw [hqdef]; positivity
    have herr : abs ((M0 : ℚ) - q) ≤ 1 / 2 := rnd_toNat_err hq0
    have h10 : (10 : ℚ) ≠ 0 := by norm_num
    have hV2 : ((me.1 : ℕ) : ℚ) * (10 : ℚ) ^ (me.2 - (p : ℤ)) =
        (M0 : ℚ) * (10 : ℚ) ^ (e0 - (p : ℤ)) := by
      rw [hme]
      split
      · next hcar =>
        rw [hcar]
        push_cast
        rw [← zpow_natCast (10 : ℚ) p, ← zpow_natCast (10 : ℚ) (p + 1),
          ← zpow_add₀ h10, ← zpow_add₀ h10]
        congr 1
        push_cast
        ring
      · rfl
    have hxq : |x| = q * (10 : ℚ) ^ (e0 - (p : ℤ)) := by
      rw [hqdef, mul_assoc, ← zpow_add₀ h10]
      have harith : ((p : ℤ) - e0) + (e0 - (p : ℤ)) = 0 := by ring
      rw [harith, zpow_zero, mul_one]
    have hzpos : (0 : ℚ) < (10 : ℚ) ^ (e0 - (p : ℤ)) := zpow_pos (by norm_num) _
    have hcore : abs ((M0 : ℚ) * (10 : ℚ) ^ (e0 - (p : ℤ)) - |x|) ≤
        1 / 2 * (10 : ℚ) ^ (e0 - (p : ℤ)) := by
      rw [hxq, ← sub_mul, abs_mul, abs_of_pos hzpos]
      exact mul_le_mul_of_nonneg_right herr (le_of_lt hzpos)
    have he00 : e0 ≤ 0 := by
      by_contra hcon
      push_neg at hcon
      have h1e : (1 : ℤ) ≤ e0 := hcon
      have : (10 : ℚ) ^ (1 : ℤ) ≤ (10 : ℚ) ^ e0 :=
        zpow_le_zpow_right₀ (by norm_num) h1e
      rw [zpow_one] at this
      linarith
    have hle1 : (10 : ℚ) ^ (e0 - (p : ℤ)) ≤ (10 : ℚ) ^ (-(p : ℤ)) :=
      zpow_le_zpow_right₀ (by norm_num) (by omega)
    have hfinal : 1 / 2 * (10 : ℚ) ^ (e0 - (p : ℤ)) ≤ 1 / 10 ^ p := by
      have h1 : (10 : ℚ) ^ (-(p : ℤ)) = 1 / 10 ^ p := by
        rw [zpow_neg, zpow_natCast, one_div]
      have h2 : (0 : ℚ) < 1 / 10 ^ p := by positivity
      rw [h1] at hle1
      linarith
    by_cases hx : x < 0
    · rw [if_pos hx]
      have heq : (-1 : ℚ) * ((me.1 : ℕ) : ℚ) * (10 : ℚ) ^ (me.2 - (p : ℤ)) - x =
          -(((me.1 : ℕ) : ℚ) * (10 : ℚ) ^ (me.2 - (p : ℤ)) - |x|) := by
        rw [abs_of_neg hx]
        ring
      rw [heq, abs_neg, hV2]
      exact le_trans hcore hfinal
    · rw [if_neg hx]
      have heq : (1 : ℚ) * ((me.1 : ℕ) : ℚ) * (10 : ℚ) ^ (me.2 - (p : ℤ)) - x =
          ((me.1 : ℕ) : ℚ) * (10 : ℚ) ^ (me.2 - (p : ℤ)) - |x| := by
        rw [abs_of_nonneg (le_of_not_lt hx)]
        ring
      rw [heq, hV2]
      exact le_trans hcore hfinal

/-! ## Character classes of formatted numbers -/

theorem fixedChars_not_ws {m p : ℕ} : ∀ c ∈ fixedChars m p, isWsC c = false := by
  intro c hc
  unfold fixedChars at hc
  split at hc
  · exact isWsC_of_isDigitC (natToChars_digits c hc)
  · rcases List.mem_append.1 hc with h | h
    · exact isWsC_of_isDigitC (natToChars_digits c h)
    · rcases List.mem_cons.1 h with h' | h'
      · rw [h']; decide
      · exact isWsC_of_isDigitC (padZeros_digits (fun d hd => natToChars_digits d hd) c h')

theorem intToChars_not_ws {e : ℤ} : ∀ c ∈ intToChars e, isWsC c = false := by
  intro c hc
  unfold intToChars at hc
  split at hc
  · rcases List.mem_cons.1 hc with h' | h'
    · rw [h']; decide
    · exact isWsC_of_isDigitC (natToChars_digits c h')
  · exact isWsC_of_isDigitC (natToChars_digits c hc)

theorem fmtFloat_not_ws {ff : FloatFormat} {p : ℕ} {x : ℚ} :
    ∀ c ∈ fmtFloat ff p x, isWsC c = false := by
  intro c hc
  cases ff with
  | Decimal =>
    simp only [fmtFloat, fmtDecimal] at hc
    rcases List.mem_append.1 hc with h | h
    · split at h
      · rw [List.mem_singleton] at h
        rw [h]; decide
      · simp at h
    · exact fixedChars_not_ws c h
  | Scientific =>
    simp only [fmtFloat, fmtScientific] at hc
    split at hc
    · rcases List.mem_append.1 hc with h | h
      · exact fixedChars_not_ws c h
      · rcases List.mem_cons.1 h with h' | h'
        · rw [h']; decide
        · rw [List.mem_singleton] at h'; rw [h']; decide
    · rcases List.mem_append.1 hc with h | h
      · rcases List.mem_append.1 h with h2 | h2
        · split at h2
          · rw [List.mem_singleton] at h2; rw [h2]; decide
          · simp at h2
        · exact fixedChars_not_ws c h2
      · rcases List.mem_cons.1 h with h' | h'
        · rw [h']; decide
        · exact intToChars_not_ws c h'

theorem fmtFloat_ne_nil (ff : FloatFormat) (p : ℕ) (x : ℚ) : fmtFloat ff p x ≠ [] := by
  obtain ⟨c, t, e, _⟩ := fixedChars_cons (rnd (|x| * 10 ^ p)).toNat p
  cases ff with
  | Decimal =>
    simp only [fmtFloat, fmtDecimal]
    intro hcon
    rcases List.append_eq_nil.1 hcon with ⟨_, h2⟩
    rw [e] at h2
    cases h2
  | Scientific =>
    simp only [fmtFloat, fmtScientific]
    split
    · intro hcon
      rcases List.append_eq_nil.1 hcon with ⟨_, h2⟩
      cases h2
    · intro hcon
      rcases List.append_eq_nil.1 hcon with ⟨_, h2⟩
      cases h2

/-! ## Round-trip of the flat format -/

theorem splitWs_sepUnlessLast {s : Char} (hs : isWsC s = true) (f : ℚ → List Char)
    (hf : ∀ x, f x ≠ []) (hf2 : ∀ x c, c ∈ f x → isWsC c = false) :
    ∀ l : List ℚ, splitWs (sepUnlessLast [s] f l) = l.map f := by
  intro l
  induction l with
  | nil => rfl
  | cons x l ih =>
    cases l with
    | nil =>
      rw [sepUnlessLast, List.map_singleton]
      exact splitWs_single (hf x) (hf2 x)
    | cons y rest =>
      rw [sepUnlessLast, List.map_cons, List.append_assoc, List.singleton_append,
        splitWs_token_sep (hf x) (hf2 x) hs, ih]

theorem parseFloats_map_fmt (ff : FloatFormat) (p : ℕ) :
    ∀ v : List ℚ, parseFloats (v.map (fmtFloat ff p)) = some (v.map (fmtVal ff p)) := by
  intro v
  induction v with
  | nil => rfl
  | cons x v ih =>
    rw [List.map_cons, List.map_cons, parseFloats, parseFloat_fmtFloat, ih]

/-- Formatting a vector in the flat format and re-parsing it recovers the
rounded values exactly. -/
theorem parse_vector_format_flat (v : List ℚ) (ff : FloatFormat) (p : ℕ) :
    parse_vector (format_vector_flat v ff p) = some (v.map (fmtVal ff p)) := by
  unfold parse_vector format_vector_flat
  rw [splitWs_sepUnlessLast (by decide) (fmtFloat ff p) (fmtFloat_ne_nil ff p)
    (fun x c hc => fmtFloat_not_ws c hc), parseFloats_map_fmt]

/-! ## Row-major semantics of `parse_matrix` -/

theorem transpose_get (m : DMatrix) (i j : ℕ) (hi : i < m.ncols) (hj : j < m.nrows) :
    m.transpose.get i j = m.get j i := by
  unfold DMatrix.transpose DMatrix.get
  have hk : j * m.ncols + i < m.nrows * m.ncols := by
    calc j * m.ncols + i < j * m.ncols + m.ncols := by omega
      _ = (j + 1) * m.ncols := by ring
      _ ≤ m.nrows * m.ncols := Nat.mul_le_mul_right m.ncols (by omega)
  rw [List.getD_eq_getElem?_getD, List.getElem?_map, List.getElem?_range hk]
  simp only [Option.map_some', Option.getD_some]
  have hdiv : (j * m.ncols + i) / m.ncols = j := by
    rw [Nat.mul_comm j m.ncols, Nat.mul_add_div (by omega), Nat.div_eq_of_lt hi, Nat.add_zero]
  have hmod : (j * m.ncols + i) % m.ncols = i := by
    rw [Nat.mul_comm j m.ncols, Nat.mul_add_mod, Nat.mod_eq_of_lt hi]
  rw [hdiv, hmod]

/-- The heart of claims C1 and C8: a successfully parsed flat token stream of
length `rows * cols` yields the matrix whose `(k / cols, k % cols)` entry is
token `k`. -/
theorem parse_matrix_spec {s : List Char} {v : List ℚ} {r c : ℕ}
    (hv : parse_vector s = some v) (hlen : v.length = r * c) :
    ∃ M, parse_matrix s r c = some M ∧ M.nrows = r ∧ M.ncols = c ∧
      ∀ k, k < r * c → M.get (k / c) (k % c) = v.getD k 0 := by
  refine ⟨DMatrix.transpose ⟨c, r, v⟩, ?_, rfl, rfl, ?_⟩
  · unfold parse_matrix
    rw [hv]
    simp only [DMatrix.from_vec]
    rw [if_pos (by rw [hlen]; ring), Option.map_some']
  · intro k hk
    have hc : 0 < c := by
      rcases Nat.eq_zero_or_pos c with h | h
      · subst h; simp at hk
      · exact h
    have hi : k / c < r := Nat.div_lt_of_lt_mul (by rw [Nat.mul_comm] at hk; exact hk)
    have hj : k % c < c := Nat.mod_lt k hc
    have hT := transpose_get ⟨c, r, v⟩ (k / c) (k % c) hi hj
    rw [hT]
    unfold DMatrix.get
    simp only
    rw [Nat.div_add_mod' k c]

/-! ## Splitting a file into lines (`BufRead::lines`) -/

/-- Split on `'\n'`, keeping empty segments (an empty input gives one empty
segment). -/
def splitNl : List Char → List (List Char)
  | [] => [[]]
  | c :: rest =>
    if c = '\n' then [] :: splitNl rest
    else
      match splitNl rest with
      | [] => [[c]]
      | w :: ws => (c :: w) :: ws

/-- `BufRead::lines` on a whole file: the lines without their terminators; a
trailing newline does not produce a final empty line.  (`\r\n` endings do
not occur in the writer's output and are not modelled.) -/
def linesOf (s : List Char) : List (List Char) :=
  if s = [] then []
  else if s.getLast? = some '\n' then (splitNl s).dropLast else splitNl s

theorem splitNl_no_nl : ∀ {l : List Char}, (∀ c ∈ l, c ≠ '\n') → splitNl l = [l] := by
  intro l
  induction l with
  | nil => intro _; rfl
  | cons c rest ih =>
    intro h
    rw [splitNl, if_neg (h c (by simp)), ih (fun d hd => h d (by simp [hd]))]

theorem splitNl_append_nl :
    ∀ {A : List Char} (B : List Char), (∀ c ∈ A, c ≠ '\n') →
      splitNl (A ++ '\n' :: B) = A :: splitNl B := by
  intro A
  induction A with
  | nil =>
    intro B _
    rw [List.nil_append, splitNl, if_pos rfl]
  | cons a A ih =>
    intro B h
    rw [List.cons_append, splitNl, if_neg (h a (by simp)),
      ih B (fun d hd => h d (by simp [hd]))]

theorem getLast?_mem : ∀ {l : List Char} {a : Char}, l.getLast? = some a → a ∈ l := by
  intro l
  induction l with
  | nil => intro a h; cases h
  | cons c rest ih =>
    intro a h
    cases rest with
    | nil =>
      simp only [List.getLast?_singleton, Option.some_inj] at h
      simp [h]
    | cons d rest' =>
      rw [List.getLast?_cons_cons] at h
      simp [ih h]

theorem sepUnlessLast_ne_nil {α : Type} (sep : List Char) (g : α → List Char)
    (hg : ∀ x, g x ≠ []) : ∀ {v : List α}, v ≠ [] → sepUnlessLast sep g v ≠ [] := by
  intro v
  induction v with
  | nil => intro h; exact absurd rfl h
  | cons x v ih =>
    intro _
    cases v with
    | nil => exact hg x
    | cons y rest =>
      rw [sepUnlessLast]
      intro hcon
      rcases List.append_eq_nil.1 hcon with ⟨h1, _⟩
      rcases List.append_eq_nil.1 h1 with ⟨h2, _⟩
      exact hg x h2

theorem getLast?_sepUnlessLast {α : Type} (sep : List Char) (g : α → List Char)
    (hg : ∀ x, g x ≠ []) :
    ∀ {v : List α}, v ≠ [] → ∃ x ∈ v, (sepUnlessLast sep g v).getLast? = (g x).getLast? := by
  intro v
  induction v with
  | nil => intro h; exact absurd rfl h
  | cons x v ih =>
    intro _
    cases v with
    | nil => exact ⟨x, by simp, rfl⟩
    | cons y rest =>
      obtain ⟨z, hz, hlast⟩ := ih (by simp)
      refine ⟨z, by simp [hz], ?_⟩
      have hS : sepUnlessLast sep g (y :: rest) ≠ [] :=
        sepUnlessLast_ne_nil sep g hg (by simp)
      have hsS : sep ++ sepUnlessLast sep g (y :: rest) ≠ [] := fun hcon =>
        hS (List.append_eq_nil.1 hcon).2
      rw [sepUnlessLast, List.append_assoc, List.getLast?_append_of_ne_nil _ hsS,
        List.getLast?_append_of_ne_nil _ hS]
      exact hlast

theorem splitNl_sepUnlessLast {α : Type} (g : α → List Char)
    (hg : ∀ x c, c ∈ g x → c ≠ '\n') :
    ∀ {v : List α}, v ≠ [] → splitNl (sepUnlessLast ['\n'] g v) = v.map g := by
  intro v
  induction v with
  | nil => intro h; exact absurd rfl h
  | cons x v ih =>
    intro _
    cases v with
    | nil =>
      rw [sepUnlessLast, List.map_singleton]
      exact splitNl_no_nl (hg x)
    | cons y rest =>
      rw [sepUnlessLast, List.map_cons, List.append_assoc, List.singleton_append,
        splitNl_append_nl _ (hg x), ih (by simp)]

/-! ## Reading back a written document -/

theorem startsPercent_cons {c : Char} (t : List Char) (h : c ≠ '%') :
    startsPercent (c :: t) = false := by
  unfold startsPercent
  split
  · next heq =>
    rw [List.cons.injEq] at heq
    exact absurd heq.1 h
  · rfl

theorem readDims_skip :
    ∀ (cs : List (List Char)) (rest : List (List Char)),
      (∀ l ∈ cs, startsPercent l = true) → readDims (cs ++ rest) = readDims rest := by
  intro cs
  induction cs with
  | nil => intro rest _; rfl
  | cons l cs ih =>
    intro rest h
    rw [List.cons_append, readDims, if_pos (h l (by simp))]
    exact ih rest (fun l' hl' => h l' (by simp [hl']))

theorem readDims_dim {l t0 t1 : List Char} {ts : List (List Char)} {r c : ℕ}
    (hnp : startsPercent l = false) (hsplit : splitWs l = t0 :: t1 :: ts)
    (h0 : parseNat? t0 = some r) (h1 : parseNat? t1 = some c) (rest : List (List Char)) :
    readDims (l :: rest) = .ok (r, c, rest) := by
  rw [readDims, if_neg (by rw [hnp]; simp), hsplit]
  dsimp only
  rw [h0, h1]

theorem readData_rows (ff : FloatFormat) (p : ℕ) :
    ∀ v : List ℚ,
      readData (v.map (fun x => ' ' :: ' ' :: fmtFloat ff p x)) =
        .ok (v.map (fmtVal ff p)) := by
  intro v
  induction v with
  | nil => rfl
  | cons x v ih =>
    rw [List.map_cons, List.map_cons, readData]
    have hsp : splitWs (' ' :: ' ' :: fmtFloat ff p x) = [fmtFloat ff p x] := by
      rw [splitWs_ws_cons (by decide), splitWs_ws_cons (by decide),
        splitWs_single (fmtFloat_ne_nil ff p x) (fun c hc => fmtFloat_not_ws c hc)]
    rw [hsp, parseFloats, parseFloat_fmtFloat, parseFloats, ih]
    rfl

theorem dimLine_no_nl (n : ℕ) :
    ∀ c ∈ natToChars n ++ ' ' :: '1' :: ' ' :: natToChars n, c ≠ '\n' := by
  intro c hc
  rcases List.mem_append.1 hc with h | h
  · exact ne_of_isDigitC (natToChars_digits c h) (by decide)
  · rcases List.mem_cons.1 h with h' | h'
    · rw [h']; decide
    · rcases List.mem_cons.1 h' with h2 | h2
      · rw [h2]; decide
      · rcases List.mem_cons.1 h2 with h3 | h3
        · rw [h3]; decide
        · exact ne_of_isDigitC (natToChars_digits c h3) (by decide)

theorem splitWs_dimLine (n : ℕ) :
    splitWs (natToChars n ++ ' ' :: '1' :: ' ' :: natToChars n) =
      [natToChars n, ['1'], natToChars n] := by
  have hdig : ∀ c ∈ natToChars n, isWsC c = false := fun c hc =>
    isWsC_of_isDigitC (natToChars_digits c hc)
  rw [splitWs_token_sep (natToChars_ne_nil n) hdig (by decide)]
  rw [show ('1' :: ' ' :: natToChars n : List Char) = ['1'] ++ ' ' :: natToChars n from rfl]
  rw [splitWs_token_sep (by simp) (by intro c hc; rw [List.mem_singleton] at hc; rw [hc]; rfl)
    (by decide)]
  rw [splitWs_single (natToChars_ne_nil n) hdig]

theorem mm_array_shape (v : List ℚ) (ff : FloatFormat) (p : ℕ) (header : List Char) :
    format_vector_mm_array v ff p header =
      ('%' :: ' ' :: header) ++
        '\n' :: ((natToChars v.length ++ ' ' :: '1' :: ' ' :: natToChars v.length) ++
          '\n' :: sepUnlessLast ['\n'] (fun x => ' ' :: ' ' :: fmtFloat ff p x) v) := by
  unfold format_vector_mm_array
  simp [List.append_assoc]

theorem mm_array_getLast {v : List ℚ} {ff : FloatFormat} {p : ℕ} {header : List Char}
    (hv : v ≠ []) :
    (format_vector_mm_array v ff p header).getLast? ≠ some '\n' := by
  set g : ℚ → List Char := fun x => ' ' :: ' ' :: fmtFloat ff p x with hg
  have hgne : ∀ x, g x ≠ [] := fun x => by rw [hg]; simp
  have hbody : sepUnlessLast ['\n'] g v ≠ [] := sepUnlessLast_ne_nil _ g hgne hv
  rw [mm_array_shape]
  rw [List.getLast?_append_of_ne_nil _ (by simp)]
  rw [show ('\n' :: ((natToChars v.length ++ ' ' :: '1' :: ' ' :: natToChars v.length) ++
      '\n' :: sepUnlessLast ['\n'] g v) : List Char) =
    ('\n' :: (natToChars v.length ++ ' ' :: '1' :: ' ' :: natToChars v.length) ++ ['\n']) ++
      sepUnlessLast ['\n'] g v by simp [List.append_assoc]]
  rw [List.getLast?_append_of_ne_nil _ hbody]
  obtain ⟨x, _, hlast⟩ := getLast?_sepUnlessLast ['\n'] g hgne hv
  rw [hlast]
  intro hcon
  have hmem := getLast?_mem hcon
  rw [hg] at hmem
  rcases List.mem_cons.1 hmem with h | h
  · cases h
  · rcases List.mem_cons.1 h with h2 | h2
    · cases h2
    · have := @fmtFloat_not_ws ff p x '\n' h2
      cases this

theorem linesOf_mm_array (v : List ℚ) (ff : FloatFormat) (p : ℕ) (header : List Char)
    (hv : v ≠ []) (hh : ∀ c ∈ header, c ≠ '\n') :
    linesOf (format_vector_mm_array v ff p header) =
      ('%' :: ' ' :: header) ::
        (natToChars v.length ++ ' ' :: '1' :: ' ' :: natToChars v.length) ::
        v.map (fun x => ' ' :: ' ' :: fmtFloat ff p x) := by
  unfold linesOf
  rw [if_neg (by rw [mm_array_shape]; simp), if_neg (mm_array_getLast hv)]
  rw [mm_array_shape]
  have hA : ∀ c ∈ ('%' :: ' ' :: header : List Char), c ≠ '\n' := by
    intro c hc
    rcases List.mem_cons.1 hc with h | h
    · rw [h]; decide
    · rcases List.mem_cons.1 h with h2 | h2
      · rw [h2]; decide
      · exact hh c h2
  rw [splitNl_append_nl _ hA, splitNl_append_nl _ (dimLine_no_nl v.length),
    splitNl_sepUnlessLast _ ?hrows hv]
  case hrows =>
    intro x c hc
    rcases List.mem_cons.1 hc with h | h
    · rw [h]; decide
    · rcases List.mem_cons.1 h with h2 | h2
      · rw [h2]; decide
      · exact fun hcon => by
          have := @fmtFloat_not_ws ff p x c h2
          rw [hcon] at this
          cases this

/-- Reading back a document written by `format_vector_mm_array`: the
dimension line's third token is ignored and the document parses as an
`n × 1` vector holding the printed (rounded) values. -/
theorem read_mm_array (v : List ℚ) (ff : FloatFormat) (p : ℕ) (header : List Char)
    (hv : v ≠ []) (hh : ∀ c ∈ header, c ≠ '\n') :
    read_matrix_file (linesOf (format_vector_mm_array v ff p header)) =
      .ok ⟨v.length, 1, v.map (fmtVal ff p)⟩ := by
  rw [linesOf_mm_array v ff p header hv hh]
  obtain ⟨c0, t0, he, hc0, _⟩ := natToChars_cons v.length
  have hdims : readDims (('%' :: ' ' :: header) ::
      (natToChars v.length ++ ' ' :: '1' :: ' ' :: natToChars v.length) ::
      v.map (fun x => ' ' :: ' ' :: fmtFloat ff p x)) =
      .ok (v.length, 1, v.map (fun x => ' ' :: ' ' :: fmtFloat ff p x)) := by
    have hsp : startsPercent ('%' :: ' ' :: header) = true := rfl
    rw [readDims, if_pos hsp]
    refine readDims_dim ?_ (splitWs_dimLine v.length) (parseNat_natToChars v.length)
      (by decide) _
    rw [show (natToChars v.length ++ ' ' :: '1' :: ' ' :: natToChars v.length) =
      (c0 :: t0) ++ ' ' :: '1' :: ' ' :: natToChars v.length by rw [← he]]
    rw [List.cons_append]
    exact startsPercent_cons _ (ne_of_isDigitC hc0 (by decide))
  rw [read_matrix_file, hdims]
  dsimp only
  rw [readData_rows]
  dsimp only
  rw [if_pos (by simp)]

/-! ## Token counting in `read_matrix_file` -/

theorem read_matrix_file_count {lines rest : List (List Char)} {r c : ℕ} {data : List ℚ}
    (hdims : readDims lines = .ok (r, c, rest)) (hdata : readData rest = .ok data) :
    (read_matrix_file lines = .ok ⟨r, c, data⟩ ↔ data.length = r * c) ∧
      (read_matrix_file lines = .error .countMismatch ↔ data.length ≠ r * c) := by
  rw [read_matrix_file, hdims]
  dsimp only
  rw [hdata]
  dsimp only
  by_cases h : data.length = r * c
  · rw [if_pos h]
    refine ⟨⟨fun _ => h, fun _ => rfl⟩, ⟨(fun hcon => by cases hcon), fun hcon => absurd h hcon⟩⟩
  · rw [if_neg h]
    refine ⟨⟨(fun hcon => by cases hcon), fun hcon => absurd hcon h⟩, ⟨fun _ => h, fun _ => rfl⟩⟩

theorem sepUnlessLast_eq_intercalate {α : Type} (sep : List Char) (g : α → List Char) :
    ∀ l : List α, sepUnlessLast sep g l = List.intercalate sep (l.map g) := by
  intro l
  induction l with
  | nil => rfl
  | cons x l ih =>
    cases l with
    | nil => simp [sepUnlessLast, List.intercalate]
    | cons y rest =>
      rw [sepUnlessLast, ih, List.map_cons]
      rw [List.map_cons] at ih ⊢
      simp only [List.intercalate, List.intersperse]
      simp [List.append_assoc]

/-! ## The comparison loop -/

theorem except_map_error {ε α β : Type} {f : α → β} {e : Except ε α} {err : ε} :
    e.map f = .error err ↔ e = .error err := by
  cases e <;> simp [Except.map]

theorem cmpLoop_ok_spec (computed truth : List ℚ) (eps : ℚ) :
    ∀ (is : List ℕ) (rows : List CmpRow), cmpLoop computed truth eps is = .ok rows →
      ∀ j i, is.get? j = some i →
        ∃ vc vt, computed.get? i = some vc ∧ truth.get? i = some vt ∧
          rows.get? j = some ⟨vc, vt, |vc - vt|, epsilon_eq vt vc eps⟩ := by
  intro is
  induction is with
  | nil => intro rows _ j i hj; simp at hj
  | cons i0 is ih =>
    intro rows hok j i hj
    rw [cmpLoop] at hok
    rcases hc : computed.get? i0 with _ | vc0 <;> rw [hc] at hok
    · cases hok
    · rcases ht : truth.get? i0 with _ | vt0 <;> rw [ht] at hok
      · cases hok
      · rcases hrec : cmpLoop computed truth eps is with e | rows' <;> rw [hrec] at hok
        · cases hok
        · simp only [Except.map, Except.ok.injEq] at hok
          subst hok
          cases j with
          | zero =>
            rw [List.get?_cons_zero, Option.some_inj] at hj
            subst hj
            exact ⟨vc0, vt0, hc, ht, rfl⟩
          | succ j =>
            rw [List.get?_cons_succ] at hj
            exact ih rows' hrec j i hj

theorem cmpLoop_error_iff (computed truth : List ℚ) (eps : ℚ) :
    ∀ is : List ℕ, (∀ i ∈ is, i < computed.length) →
      (cmpLoop computed truth eps is = .error .indexPanic ↔
        ∃ i ∈ is, truth.length ≤ i) := by
  intro is
  induction is with
  | nil => intro _; simp [cmpLoop]
  | cons i0 is ih =>
    intro hlt
    rw [cmpLoop]
    rcases hc : computed.get? i0 with _ | vc0
    · rw [List.get?_eq_none] at hc
      exact absurd (hlt i0 (by simp)) (by omega)
    · rcases ht : truth.get? i0 with _ | vt0
      · rw [List.get?_eq_none] at ht
        constructor
        · intro _; exact ⟨i0, by simp, ht⟩
        · intro _; rfl
      · have hti : i0 < truth.length := by
          by_contra hcon
          rw [List.get?_eq_none.2 (by omega)] at ht
          cases ht
        rw [except_map_error, ih (fun i hi => hlt i (by simp [hi]))]
        constructor
        · rintro ⟨i, hi, hlen⟩
          exact ⟨i, by simp [hi], hlen⟩
        · rintro ⟨i, hi, hlen⟩
          rcases List.mem_cons.1 hi with h | h
          · subst h; omega
          · exact ⟨i, h, hlen⟩

theorem format_comparison_rows_error_iff (computed truth : List ℚ) (eps : ℚ) :
    format_comparison_rows computed truth eps = .error .indexPanic ↔
      truth.length < computed.length := by
  unfold format_comparison_rows
  rw [cmpLoop_error_iff computed truth eps (List.range computed.length)
    (fun i hi => List.mem_range.1 hi)]
  constructor
  · rintro ⟨i, hi, hlen⟩
    rw [List.mem_range] at hi
    omega
  · intro h
    exact ⟨truth.length, List.mem_range.2 h, le_rfl⟩

theorem format_comparison_results_error_iff (computed truth : List ℚ) (ff : FloatFormat)
    (p : ℕ) (eps : ℚ) :
    format_comparison_results computed truth ff p eps = .error .indexPanic ↔
      truth.length < computed.length := by
  unfold format_comparison_results
  rw [except_map_error]
  exact format_comparison_rows_error_iff computed truth eps

/-! ## The specification claims -/

/-- C1: for every whitespace-delimited token stream of exactly `rows * cols`
valid float tokens, the matrix produced by `parse_matrix` places token `k` at
row `k / cols`, column `k % cols` (row-major order). -/
theorem C1_parse_matrix_row_major (s : List Char) (v : List ℚ) (r c : ℕ)
    (hv : parse_vector s = some v) (hlen : v.length = r * c) :
    ∃ M, parse_matrix s r c = some M ∧ M.nrows = r ∧ M.ncols = c ∧
      ∀ k, k < r * c → M.get (k / c) (k % c) = v.getD k 0 :=
  parse_matrix_spec hv hlen

unseal Rat.mul Rat.add Rat.sub Rat.inv in
theorem C1_parse_matrix_row_major_witness :
    parse_vector "1 2 3 4 5 6".toList = some [1, 2, 3, 4, 5, 6] ∧
      ∃ M, parse_matrix "1 2 3 4 5 6".toList 2 3 = some M ∧ M.get 1 2 = 6 := by
  refine ⟨by decide, ?_⟩
  obtain ⟨M, hM, _, _, hget⟩ := C1_parse_matrix_row_major "1 2 3 4 5 6".toList
    [1, 2, 3, 4, 5, 6] 2 3 (by decide) (by decide)
  refine ⟨M, hM, ?_⟩
  have h5 := hget 5 (by decide)
  norm_num at h5
  exact h5

/-- C2: for every document whose dimension line parses as `(rows, cols)` and
whose data tokens all parse as floats, `read_matrix_file` rejects the
document (the token-count mismatch, the spec's `FormatError`) exactly when
the number of data tokens differs from `rows * cols`, and accepts it exactly
when the count matches. -/
theorem C2_read_document_token_count (lines rest : List (List Char)) (r c : ℕ)
    (data : List ℚ) (hdims : readDims lines = .ok (r, c, rest))
    (hdata : readData rest = .ok data) :
    (read_matrix_file lines = .ok ⟨r, c, data⟩ ↔ data.length = r * c) ∧
      (read_matrix_file lines = .error .countMismatch ↔ data.length ≠ r * c) :=
  read_matrix_file_count hdims hdata

unseal Rat.mul Rat.add Rat.sub Rat.inv in
theorem C2_read_document_token_count_witness :
    readDims ["2 2".toList, "1 2 3".toList] = .ok (2, 2, ["1 2 3".toList]) ∧
      readData ["1 2 3".toList] = .ok [1, 2, 3] ∧
      (read_matrix_file ["2 2".toList, "1 2 3".toList] = .error .countMismatch ↔
        ([1, 2, 3] : List ℚ).length ≠ 2 * 2) := by
  refine ⟨by decide, by decide, ?_⟩
  exact (C2_read_document_token_count ["2 2".toList, "1 2 3".toList] ["1 2 3".toList]
    2 2 [1, 2, 3] (by decide) (by decide)).2

unseal Rat.mul Rat.add Rat.sub Rat.inv in
/-- C4 counterexample: the flat parser does not fail on empty input — it
silently produces the empty vector — and a document declaring zero rows is
accepted as an empty matrix rather than rejected. -/
theorem C4_counterexample :
    parse_vector [] = some [] ∧
      read_matrix_file ["0 3".toList] = .ok ⟨0, 3, []⟩ := by decide

/-- C4 (amended): `parse_vector` on empty input succeeds with the empty
vector, and a document declaring zero rows or zero columns is accepted
(as an empty matrix) exactly when no data token follows the dimension
line; any data token makes the count check fail. -/
theorem C4_empty_and_zero_dims (lines rest : List (List Char)) (r c : ℕ) (data : List ℚ)
    (hdims : readDims lines = .ok (r, c, rest)) (hdata : readData rest = .ok data)
    (hzero : r * c = 0) :
    parse_vector [] = some [] ∧
      (read_matrix_file lines = .ok ⟨r, c, data⟩ ↔ data = []) := by
  refine ⟨rfl, ?_⟩
  have h := (read_matrix_file_count hdims hdata).1
  rw [hzero] at h
  rw [h, List.length_eq_zero]

unseal Rat.mul Rat.add Rat.sub Rat.inv in
theorem C4_empty_and_zero_dims_witness :
    readDims ["0 3".toList] = .ok (0, 3, []) ∧
      (parse_vector [] = some [] ∧
        (read_matrix_file ["0 3".toList] = .ok ⟨0, 3, []⟩ ↔ ([] : List ℚ) = [])) :=
  ⟨by decide, C4_empty_and_zero_dims ["0 3".toList] [] 0 3 [] (by decide) (by decide)
    (by decide)⟩

unseal Rat.mul Rat.add Rat.sub Rat.inv in
/-- C5 counterexample: a line whose first character is the comment marker
`%` occurring after the dimension line is not skipped; its tokens are fed
to the float parser, so the read fails instead of returning the 1×1 matrix
`[2.0]`. -/
theorem C5_counterexample :
    read_matrix_file ["% h".toList, "1 1".toList, "% t".toList, "2.0".toList] =
      .error .tokenPanic := by decide

/-- C5 (amended): the document reader skips exactly those lines before the
dimension line whose first character is `%`; lines after the dimension line
are never treated as comments. -/
theorem C5_comment_skip (cs rest : List (List Char))
    (h : ∀ l ∈ cs, startsPercent l = true) :
    readDims (cs ++ rest) = readDims rest :=
  readDims_skip cs rest h

theorem C5_comment_skip_witness :
    (∀ l ∈ [("% a".toList : List Char), "%b".toList], startsPercent l = true) ∧
      readDims (["% a".toList, "%b".toList] ++ ["2 2".toList]) =
        readDims ["2 2".toList] :=
  ⟨by decide, C5_comment_skip ["% a".toList, "%b".toList] ["2 2".toList] (by decide)⟩

/-- C6: in the rows emitted by the comparison formatter, the within-epsilon
flag at row `i` is true exactly when `|computed[i] - truth[i]| < epsilon`
(strict comparison). -/
theorem C6_within_epsilon_flag (computed truth : List ℚ) (eps : ℚ) (rows : List CmpRow)
    (i : ℕ) (row : CmpRow) (vc vt : ℚ)
    (hok : format_comparison_rows computed truth eps = .ok rows)
    (hrow : rows.get? i = some row)
    (hvc : computed.get? i = some vc) (hvt : truth.get? i = some vt) :
    row.withinEps = true ↔ |vc - vt| < eps := by
  have hi : i < computed.length := by
    by_contra hcon
    rw [List.get?_eq_none.2 (by omega)] at hvc
    cases hvc
  obtain ⟨vc', vt', hvc', hvt', hrow'⟩ :=
    cmpLoop_ok_spec computed truth eps (List.range computed.length) rows hok i i
      (by rw [List.get?_eq_getElem?, List.getElem?_range hi])
  rw [hvc'] at hvc
  rw [hvt'] at hvt
  rw [hrow'] at hrow
  rw [Option.some_inj] at hvc hvt hrow
  subst hvc
  subst hvt
  rw [← hrow]
  simp only [epsilon_eq, decide_eq_true_eq]
  rw [abs_sub_comm]

unseal Rat.mul Rat.add Rat.sub Rat.inv in
theorem C6_within_epsilon_flag_witness :
    ((⟨1, 2001 / 2000, 1 / 2000, true⟩ : CmpRow).withinEps = true ↔
      |(1 : ℚ) - 2001 / 2000| < 1 / 1000) ∧
      ((⟨1, 2001 / 2000, 1 / 2000, false⟩ : CmpRow).withinEps = true ↔
        |(1 : ℚ) - 2001 / 2000| < 1 / 10000) :=
  ⟨C6_within_epsilon_flag [1] [2001 / 2000] (1 / 1000)
      [⟨1, 2001 / 2000, 1 / 2000, true⟩] 0 ⟨1, 2001 / 2000, 1 / 2000, true⟩ 1 (2001 / 2000)
      (by decide) (by decide) (by decide) (by decide),
    C6_within_epsilon_flag [1] [2001 / 2000] (1 / 10000)
      [⟨1, 2001 / 2000, 1 / 2000, false⟩] 0 ⟨1, 2001 / 2000, 1 / 2000, false⟩ 1 (2001 / 2000)
      (by decide) (by decide) (by decide) (by decide)⟩

unseal Rat.mul Rat.add Rat.sub Rat.inv in
/-- C7 counterexample: with `computed = [1]` and the strictly longer
`truth = [1, 2]` the comparison formatter succeeds — it does not raise the
claimed `IndexError` even though the lengths differ. -/
theorem C7_counterexample :
    format_comparison_results [1] [1, 2] .Decimal 1 1 ≠ .error .indexPanic := by decide

/-- C7 (amended): the comparison formatter fails with `IndexError` exactly
when `truth` is shorter than `computed`; when `truth` is at least as long it
succeeds, silently ignoring the extra `truth` entries. -/
theorem C7_index_error_iff (computed truth : List ℚ) (ff : FloatFormat) (p : ℕ)
    (eps : ℚ) :
    (format_comparison_results computed truth ff p eps = .error .indexPanic ↔
      truth.length < computed.length) ∧
      ((∃ out, format_comparison_results computed truth ff p eps = .ok out) ↔
        computed.length ≤ truth.length) := by
  have hiff := format_comparison_results_error_iff computed truth ff p eps
  refine ⟨hiff, ?_⟩
  constructor
  · rintro ⟨out, hout⟩
    by_contra hcon
    rw [hout] at hiff
    have := hiff.2 (by omega)
    cases this
  · intro hle
    rcases hres : format_comparison_results computed truth ff p eps with e | out
    · cases e
      have := hiff.1 hres
      omega
    · exact ⟨out, rfl⟩

theorem getD_map_of_lt {f : ℚ → ℚ} {v : List ℚ} {k : ℕ} (hk : k < v.length) :
    (v.map f).getD k 0 = f (v.getD k 0) := by
  rw [List.getD_eq_getElem?_getD, List.getElem?_map, List.getD_eq_getElem?_getD,
    List.getElem?_eq_getElem hk]
  rfl

unseal Rat.mul Rat.add Rat.sub Rat.inv in
/-- C8 counterexample: with the Scientific format at precision 1 the vector
`[1234]` is printed as `1.2e3` and parses back to `1200`, which is not
within `10^-1` of `1234` — the claimed bound fails for the Scientific
format on large values. -/
theorem C8_counterexample :
    parse_vector (format_vector_flat [1234] .Scientific 1) = some [1200] ∧
      ¬(|(1200 : ℚ) - 1234| ≤ 1 / 10 ^ 1) := by decide

/-- C8 (amended): formatting a vector with `format_vector_flat` and parsing
it back with `parse_flat` (`rows = n`, `cols = 1`) recovers the printed
values exactly; those values are within `10^-p` of the originals for the
Decimal format unconditionally, and for the Scientific format whenever
every element has magnitude below 10. -/
theorem C8_round_trip (v : List ℚ) (ff : FloatFormat) (p : ℕ) :
    (∃ M, parse_matrix (format_vector_flat v ff p) v.length 1 = some M ∧
      ∀ k, k < v.length → M.get k 0 = fmtVal ff p (v.getD k 0)) ∧
      (ff = .Decimal → ∀ x ∈ v, |fmtVal ff p x - x| ≤ 1 / 10 ^ p) ∧
      ((∀ x ∈ v, |x| < 10) → ∀ x ∈ v, |fmtVal ff p x - x| ≤ 1 / 10 ^ p) := by
  refine ⟨?_, ?_, ?_⟩
  · obtain ⟨M, hM, hr, hc, hget⟩ := parse_matrix_spec (r := v.length) (c := 1)
      (parse_vector_format_flat v ff p) (by simp)
    refine ⟨M, hM, fun k hk => ?_⟩
    have h := hget k (by omega)
    rw [Nat.div_one, Nat.mod_one] at h
    rw [h, getD_map_of_lt hk]
  · rintro rfl x _
    exact fmtVal_dec_err p x
  · intro h x hx
    cases ff with
    | Decimal => exact fmtVal_dec_err p x
    | Scientific => exact fmtVal_sci_err p (h x hx)

unseal Rat.mul Rat.add Rat.sub Rat.inv in
theorem C8_round_trip_witness :
    (∃ M, parse_matrix (format_vector_flat [1 / 2] .Scientific 1)
        ([1 / 2] : List ℚ).length 1 = some M ∧
      ∀ k, k < ([1 / 2] : List ℚ).length →
        M.get k 0 = fmtVal .Scientific 1 (([1 / 2] : List ℚ).getD k 0)) ∧
      (∀ x ∈ ([1 / 2] : List ℚ), |fmtVal .Scientific 1 x - x| ≤ 1 / 10 ^ 1) :=
  ⟨(C8_round_trip [1 / 2] .Scientific 1).1,
    (C8_round_trip [1 / 2] .Scientific 1).2.2 (by decide)⟩

/-- C9: for a non-empty vector, `format_vector_mm_array` emits exactly one
comment line containing the header, the dimension line whose three
whitespace tokens are `n`, `1`, `n`, then one value per line each prefixed
by two spaces in the chosen format, with no trailing newline after the
final value. -/
theorem C9_format_document (v : List ℚ) (ff : FloatFormat) (p : ℕ) (header : List Char)
    (hv : v ≠ []) :
    format_vector_mm_array v ff p header =
      ('%' :: ' ' :: header) ++
        '\n' :: ((natToChars v.length ++ ' ' :: '1' :: ' ' :: natToChars v.length) ++
          '\n' :: List.intercalate ['\n']
            (v.map (fun x => ' ' :: ' ' :: fmtFloat ff p x))) ∧
      splitWs (natToChars v.length ++ ' ' :: '1' :: ' ' :: natToChars v.length) =
        [natToChars v.length, ['1'], natToChars v.length] ∧
      (format_vector_mm_array v ff p header).getLast? ≠ some '\n' := by
  refine ⟨?_, splitWs_dimLine v.length, mm_array_getLast hv⟩
  rw [mm_array_shape, sepUnlessLast_eq_intercalate]

unseal Rat.mul Rat.add Rat.sub Rat.inv in
theorem C9_format_document_witness :
    format_vector_mm_array [1] .Decimal 0 "h".toList =
        ('%' :: ' ' :: "h".toList) ++
          '\n' :: ((natToChars ([1] : List ℚ).length ++
              ' ' :: '1' :: ' ' :: natToChars ([1] : List ℚ).length) ++
            '\n' :: List.intercalate ['\n']
              (([1] : List ℚ).map (fun x => ' ' :: ' ' :: fmtFloat .Decimal 0 x))) ∧
      splitWs (natToChars ([1] : List ℚ).length ++
          ' ' :: '1' :: ' ' :: natToChars ([1] : List ℚ).length) =
        [natToChars ([1] : List ℚ).length, ['1'], natToChars ([1] : List ℚ).length] ∧
      (format_vector_mm_array [1] .Decimal 0 "h".toList).getLast? ≠ some '\n' :=
  C9_format_document [1] .Decimal 0 "h".toList (by decide)

/-- C10: the document reader takes `(rows, cols)` from the first two tokens
of the dimension line and ignores every further token; consequently a
document written by `format_vector_mm_array`, whose dimension line is
`n 1 n`, reads back as an `n × 1` vector holding the printed values. -/
theorem C10_dimension_extra_tokens_ignored :
    (∀ (l t0 t1 : List Char) (ts rest : List (List Char)) (r c : ℕ),
      startsPercent l = false → splitWs l = t0 :: t1 :: ts →
      parseNat? t0 = some r → parseNat? t1 = some c →
      readDims (l :: rest) = .ok (r, c, rest)) ∧
      (∀ (v : List ℚ) (ff : FloatFormat) (p : ℕ) (header : List Char),
        v ≠ [] → (∀ ch ∈ header, ch ≠ '\n') →
        read_matrix_file (linesOf (format_vector_mm_array v ff p header)) =
          .ok ⟨v.length, 1, v.map (fmtVal ff p)⟩) :=
  ⟨fun _ _ _ _ rest _ _ h1 h2 h3 h4 => readDims_dim h1 h2 h3 h4 rest,
    fun v ff p header hv hh => read_mm_array v ff p header hv hh⟩

unseal Rat.mul Rat.add Rat.sub Rat.inv in
theorem C10_dimension_extra_tokens_ignored_witness :
    readDims ["2 1 99".toList, "5.0".toList] = .ok (2, 1, ["5.0".toList]) ∧
      read_matrix_file (linesOf (format_vector_mm_array [1] .Decimal 0 "h".toList)) =
        .ok ⟨([1] : List ℚ).length, 1, ([1] : List ℚ).map (fmtVal .Decimal 0)⟩ :=
  ⟨(C10_dimension_extra_tokens_ignored).1 "2 1 99".toList ['2'] ['1'] [['9', '9']]
      ["5.0".toList] 2 1 (by decide) (by decide) (by decide) (by decide),
    (C10_dimension_extra_tokens_ignored).2 [1] .Decimal 0 "h".toList (by decide)
      (by decide)⟩

end Smas

